import Mathlib

/-!
Verification development for the karma/kustomizer repository.

The Go sources are shallowly embedded: Go strings become lists of
characters, Go string slices become lists, Go maps become functions with
pointwise update, and the recursive directory walk becomes a pure function
over an abstract filesystem tree.  Every definition mirrors the
corresponding Go function and keeps its name where Lean allows it.
-/

/-- Character-list model of a Go string. -/
abbrev Str := List Char

/-- Model of strings.HasPrefix. -/
def hasPrefixStr (s pre : Str) : Bool := pre.isPrefixOf s

/-- Model of strings.HasSuffix. -/
def hasSuffixStr (s suf : Str) : Bool := suf.isSuffixOf s

/-- Model of strings.TrimSuffix: removes one copy of the suffix when present. -/
def trimSuffixStr (s suf : Str) : Str :=
  if hasSuffixStr s suf then s.take (s.length - suf.length) else s

/-- Model of strings.TrimRight with the cutset consisting of the slash. -/
def trimRightSlashes (s : Str) : Str :=
  (s.reverse.dropWhile (fun c => c = '/')).reverse

/-- Model of strings.ToLower. -/
def toLowerStr (s : Str) : Str := s.map Char.toLower

/-- Model of strings.TrimSpace. -/
def trimSpaceStr (s : Str) : Str :=
  ((s.dropWhile Char.isWhitespace).reverse.dropWhile Char.isWhitespace).reverse

/-- From internal/app/run.go: isRemoteResource returns true for HTTP(S)
resource references. -/
def isRemoteResource (entry : Str) : Bool :=
  hasPrefixStr entry "http://".toList || hasPrefixStr entry "https://".toList

/-- From internal/app/run.go: isYAML returns true when the file name has a
YAML extension. -/
def isYAML (name : Str) : Bool :=
  hasSuffixStr (toLowerStr name) ".yaml".toList || hasSuffixStr (toLowerStr name) ".yml".toList

/-- From internal/app/run.go: isKustomization reports whether name is a
recognized kustomization file name. -/
def isKustomization (name : Str) : Bool :=
  name = "kustomization.yaml".toList || name = "kustomization.yml".toList

/-- Options of the processor (processor.Options in the Go source). -/
structure Options where
  skip : List Str
  useGitIgnore : Bool
  includeDot : Bool
  dirSlash : Bool
  resourceOrder : List Str

/-- Per-directory statistics (processor.ResourceStats). -/
structure ResourceStats where
  reordered : Nat
  added : Nat
  removed : Nat
  updated : Nat
  noOp : Nat
deriving DecidableEq, Repr

/-- The loop body of utils.DedupPreserve: a seen set (the Go map) and an
output slice, walked over the input. -/
def dedupGo {α : Type} [DecidableEq α] (seen out : List α) : List α → List α
  | [] => out
  | v :: rest =>
    if v ∈ seen then dedupGo seen out rest
    else dedupGo (v :: seen) (out ++ [v]) rest

/-- From internal/utils: DedupPreserve returns a slice keeping only the
first occurrence of each element. -/
def DedupPreserve {α : Type} [DecidableEq α] (l : List α) : List α :=
  dedupGo [] [] l

/-- First-occurrence deduplication in structural form, used to reason about
DedupPreserve. -/
def dp {α : Type} [DecidableEq α] : List α → List α
  | [] => []
  | x :: xs => x :: dp (xs.filter (fun a => decide (a ≠ x)))
termination_by l => l.length
decreasing_by
  simp only [List.length_cons]
  exact Nat.lt_succ_of_le (List.length_filter_le _ _)

/-- Group name constants of the processor. -/
def resourceGroupRemote : Str := "remote".toList

/-- Group name constant for directories. -/
def resourceGroupDirs : Str := "dirs".toList

/-- Group name constant for files. -/
def resourceGroupFiles : Str := "files".toList

/-- Built-in resource ordering. -/
def defaultResourceOrder : List Str :=
  [resourceGroupRemote, resourceGroupDirs, resourceGroupFiles]

/-- The first loop of normalizeResourceOrder: collects the valid,
deduplicated groups, returning the seen set and the output slice. -/
def normLoop : List Str → List Str → List Str → List Str × List Str
  | seen, out, [] => (seen, out)
  | seen, out, part :: rest =>
    let group := toLowerStr (trimSpaceStr part)
    if group = [] then normLoop seen out rest
    else if group ≠ resourceGroupRemote ∧ group ≠ resourceGroupDirs ∧
        group ≠ resourceGroupFiles then normLoop seen out rest
    else if group ∈ seen then normLoop seen out rest
    else normLoop (group :: seen) (out ++ [group]) rest

/-- From the processor: normalizeResourceOrder normalizes the provided
resource ordering, appending the missing groups in default order. -/
def normalizeResourceOrder (parts : List Str) : List Str :=
  if parts = [] then defaultResourceOrder
  else
    let so := normLoop [] [] parts
    let out2 := defaultResourceOrder.foldl
      (fun o g => if g ∈ so.1 then o else o ++ [g]) so.2
    if out2 = [] then defaultResourceOrder else out2

/-- Sorting model for Go sort.Strings: lexicographic sort of the
character lists. -/
def sortStr (l : List Str) : List Str := List.insertionSort (· ≤ ·) l

/-- Model of strings.CutSuffix for the slash suffix. -/
def cutSuffixSlash (s : Str) : Option Str :=
  if hasSuffixStr s "/".toList then some (s.take (s.length - 1)) else none

/-- From the processor: decorateSubdirs appends slash suffixes when
configured. -/
def decorateSubdirs (dirSlash : Bool) (subdirs : List Str) : List Str :=
  if !dirSlash then subdirs
  else subdirs.map (fun s =>
    match cutSuffixSlash s with
    | some trimmed => trimmed ++ ['/']
    | none => s ++ ['/'])

/-- One group of the mergeResources switch. -/
def selGroup (remote dirs files : List Str) (group : Str) : List Str :=
  if group = resourceGroupRemote then remote
  else if group = resourceGroupDirs then dirs
  else if group = resourceGroupFiles then files
  else []

/-- From the processor: mergeResources produces the canonical ordering for
resources (remote entries kept from the existing list, discovered
directories decorated and sorted, discovered files sorted, groups
concatenated per the configured order, first occurrences kept). -/
def mergeResources (opts : Options) (existing dirEntries fileEntries : List Str) :
    List Str :=
  let dirs := sortStr (decorateSubdirs opts.dirSlash dirEntries)
  let files := sortStr fileEntries
  let remote := sortStr (existing.filter (fun v => isRemoteResource v))
  let order := normalizeResourceOrder opts.resourceOrder
  let final := order.foldl (fun acc group =>
    if group = resourceGroupRemote then acc ++ remote
    else if group = resourceGroupDirs then acc ++ dirs
    else if group = resourceGroupFiles then acc ++ files
    else acc) []
  DedupPreserve final

/-- Positions of an element in a list starting at offset i, the functional
reading of the buildIndexes loop. -/
def posList {α : Type} [DecidableEq α] : List α → α → Nat → List Nat
  | [], _, _ => []
  | x :: xs, s, i => (if x = s then [i] else []) ++ posList xs s (i + 1)

/-- First index of an element, as an option. -/
def idxOf? {α : Type} [DecidableEq α] : List α → α → Option Nat
  | [], _ => none
  | x :: xs, s => if x = s then some 0 else (idxOf? xs s).map (· + 1)

/-- The indexes map of orderChanged: each entry of the original list mapped
to all of its positions, built exactly like the Go loop over the map. -/
def buildIndexes (old : List Str) : Str → List Nat :=
  old.enum.foldl
    (fun m p => fun s => if s = p.2 then m s ++ [p.1] else m s)
    (fun _ => [])

/-- The scanning loop of orderChanged, with the consumed map as a function
and prev as an integer.  The Go code increments the consumed counter just
before a possible early return; the increment is unobservable there, so the
loop below increments it only on the continuing path. -/
def ocLoop (indexes : Str → List Nat) : (Str → Nat) → Int → List Str → Bool
  | _, _, [] => false
  | consumed, prev, entry :: rest =>
    match (indexes entry)[consumed entry]? with
    | none => ocLoop indexes consumed prev rest
    | some pos =>
      if prev > (pos : Int) ∧ prev ≠ -1 then true
      else ocLoop indexes
        (fun s => if s = entry then consumed s + 1 else consumed s) (pos : Int) rest

/-- From the processor: orderChanged returns true when the order of entries
has changed. -/
def orderChanged (old new : List Str) : Bool :=
  ocLoop (buildIndexes old) (fun _ => 0) (-1) new

/-- The original-list index sequence of the shared entries, in final-list
scan order; this is the sequence the specification describes. -/
def posSeq (old new : List Str) : List Nat :=
  new.filterMap (fun s => idxOf? old s)

/-- Simplified scanning loop used to characterize ocLoop on
duplicate-free lists. -/
def loop2 : Int → List Nat → Bool
  | _, [] => false
  | prev, p :: rest =>
    if prev > (p : Int) ∧ prev ≠ -1 then true else loop2 (p : Int) rest

/-- Occurrence counts of a list as a function, the counts map of
diffEntries. -/
def countsOf (l : List Str) : Str → Nat :=
  l.foldl (fun m e => fun s => if s = e then m s + 1 else m s) (fun _ => 0)

/-- The second loop of diffEntries: walks the new list, consuming counts and
collecting newly introduced entries in scan order. -/
def addedPass : (Str → Nat) → List Str → (Str → Nat) × List Str
  | c, [] => (c, [])
  | c, e :: rest =>
    if c e > 0 then addedPass (fun s => if s = e then c s - 1 else c s) rest
    else
      let r := addedPass c rest
      (r.1, e :: r.2)

/-- From the processor: diffEntries returns the added and removed elements
when comparing two resource lists.  The Go code emits the removed entries by
ranging over the leftover counts map, whose iteration order is unspecified;
the model iterates the distinct old entries in first-occurrence order, one
deterministic choice of that order. -/
def diffEntries (old new : List Str) : List Str × List Str :=
  let ap := addedPass (countsOf old) new
  let removed := ((DedupPreserve old).map (fun e => List.replicate (ap.1 e) e)).flatten
  (ap.2, removed)

/-- From the processor: the pure decision core of updateKustomization.  The
YAML node reuse and the file write are I/O; what is modeled is the merged
final list, whether a rewrite happens, and the statistics. -/
def updateKustomization (opts : Options) (order dirEntries fileEntries : List Str) :
    Bool × List Str × ResourceStats :=
  let final := mergeResources opts order dirEntries fileEntries
  if final = order then (false, final, ⟨0, 0, 0, 0, 0⟩)
  else
    let dr := diffEntries order final
    (true, final,
      ⟨if orderChanged order final then 1 else 0, dr.1.length, dr.2.length, 0, 0⟩)

/-- From the processor: applyKustomization decides whether to rewrite a
kustomization based on skip flags.  The first component reports whether the
manifest file was rewritten. -/
def applyKustomization (opts : Options) (skipUpdate : Bool)
    (order dirEntries fileEntries : List Str) : Bool × ResourceStats :=
  if skipUpdate then (false, ⟨0, 0, 0, 0, 0⟩)
  else
    let u := updateKustomization opts order dirEntries fileEntries
    if u.1 then (true, { u.2.2 with updated := 1 })
    else (false, { u.2.2 with noOp := 1 })

/-- Componentwise sum of statistics, as accumulated by walkDir. -/
def addStats (a b : ResourceStats) : ResourceStats :=
  ⟨a.reordered + b.reordered, a.added + b.added, a.removed + b.removed,
    a.updated + b.updated, a.noOp + b.noOp⟩

/-- SkipMode enumerates how patterns should behave. -/
inductive SkipMode where
  | exact
  | glob
  | subtree
  | children
deriving DecidableEq, Repr

/-- A parsed skip pattern (skipRule in the Go source). -/
structure SkipRule where
  raw : Str
  mode : SkipMode
  value : Str
deriving DecidableEq, Repr

/-- Glob characters recognized by strings.ContainsAny with the cutset of
star, question mark and brackets. -/
def containsGlobChars (s : Str) : Bool :=
  s.any (fun c => decide (c = '*' ∨ c = '?' ∨ c = '[' ∨ c = ']'))

/-- From the processor: parseSkipRules compiles CLI patterns into skipRule
entries. -/
def parseSkipRules (patterns : List Str) : List SkipRule :=
  patterns.map (fun raw =>
    let canonical := trimRightSlashes raw
    if hasSuffixStr canonical "/**".toList then
      ⟨raw, SkipMode.subtree, trimSuffixStr canonical "/**".toList⟩
    else if hasSuffixStr raw "/*".toList then
      ⟨raw, SkipMode.children, trimSuffixStr canonical "/*".toList⟩
    else if containsGlobChars raw then ⟨raw, SkipMode.glob, raw⟩
    else ⟨raw, SkipMode.exact, trimSuffixStr raw "/".toList⟩)

/-- Model of path.Base from the Go standard library: the last element of the
path after removing trailing slashes. -/
def pathBase (p : Str) : Str :=
  if p = [] then ['.']
  else
    let q := trimRightSlashes p
    let r := (q.reverse.takeWhile (fun c => decide (c ≠ '/'))).reverse
    if r = [] then ['/'] else r

/-- Single character range escape reader of the path.Match class parser
(getEsc in the Go standard library).  A dash, a closing bracket, an
unfinished escape, or a class that ends right after the character are
malformed. -/
def getEsc : Str → Option (Char × Str)
  | [] => none
  | c :: rest =>
    if c = '-' ∨ c = ']' then none
    else if c = '\\' then
      match rest with
      | [] => none
      | d :: rest2 => if rest2 = [] then none else some (d, rest2)
    else if rest = [] then none else some (c, rest)

/-- Range list parser of a path.Match character class, fueled by the length
of the remaining pattern (each step consumes at least one character, so any
fuel of at least the length is exact). -/
def parseRanges : Nat → Str → Nat → Option (List (Char × Char) × Str)
  | 0, _, _ => none
  | _, [], _ => none
  | fuel + 1, c :: rest, n =>
    if c = ']' ∧ n > 0 then some ([], rest)
    else
      match getEsc (c :: rest) with
      | none => none
      | some (lo, rest1) =>
        match rest1 with
        | '-' :: rest2 =>
          match getEsc rest2 with
          | none => none
          | some (hi, rest3) =>
            match parseRanges fuel rest3 (n + 1) with
            | none => none
            | some (rs, r) => some ((lo, hi) :: rs, r)
        | _ =>
          match parseRanges fuel rest1 (n + 1) with
          | none => none
          | some (rs, r) => some ((lo, lo) :: rs, r)

/-- Membership of a character in a range list. -/
def inClassRanges (c : Char) : List (Char × Char) → Bool
  | [] => false
  | (lo, hi) :: rest => (decide (lo ≤ c) && decide (c ≤ hi)) || inClassRanges c rest

/-- Fueled matcher modeling path.Match from the Go standard library: star
matches any run of non-separator characters, question mark one
non-separator character, bracket classes support negation and ranges, and a
backslash escapes the next character.  Malformed patterns are collapsed to
a non-match, exactly how every caller in the repository treats the error
return. -/
def globMatchF : Nat → Str → Str → Bool
  | 0, _, _ => false
  | _ + 1, [], [] => true
  | _ + 1, [], _ :: _ => false
  | f + 1, p :: ps, s =>
    if p = '*' then
      match s with
      | [] => globMatchF f ps []
      | c :: cs => globMatchF f ps s || (decide (c ≠ '/') && globMatchF f (p :: ps) cs)
    else if p = '?' then
      match s with
      | [] => false
      | c :: cs => decide (c ≠ '/') && globMatchF f ps cs
    else if p = '[' then
      match s with
      | [] => false
      | c :: cs =>
        let np : Bool × Str :=
          match ps with
          | '^' :: t => (true, t)
          | _ => (false, ps)
        match parseRanges (np.2.length + 1) np.2 0 with
        | none => false
        | some (ranges, rest) =>
          (inClassRanges c ranges != np.1) && globMatchF f rest cs
    else if p = '\\' then
      match ps with
      | [] => false
      | e :: ps2 =>
        match s with
        | [] => false
        | c :: cs => decide (e = c) && globMatchF f ps2 cs
    else
      match s with
      | [] => false
      | c :: cs => decide (p = c) && globMatchF f ps cs

/-- Entry point of the path.Match model with sufficient fuel. -/
def globMatch (pat s : Str) : Bool :=
  globMatchF (pat.length + s.length + 1) pat s

/-- From the processor: matchesChild reports whether rel is a direct child
of the prefix. -/
def matchesChild (rel pre : Str) : Bool :=
  if pre = [] then !rel.contains '/'
  else if !hasPrefixStr rel (pre ++ ['/']) then false
  else
    let rest := rel.drop (pre.length + 1)
    decide (rest ≠ []) && !rest.contains '/'

/-- From the processor: matchSkip determines whether rel matches any
configured skip rule, returning the matched mode and raw pattern. -/
def matchSkip (rel : Str) (isDir : Bool) (rules : List SkipRule) :
    Bool × SkipMode × Str :=
  match rules with
  | [] => (false, SkipMode.exact, [])
  | rule :: rest =>
    match rule.mode with
    | SkipMode.subtree =>
      if rel = rule.value then (true, SkipMode.subtree, rule.raw)
      else matchSkip rel isDir rest
    | SkipMode.children =>
      if isDir ∧ rel = rule.value then (true, SkipMode.children, rule.raw)
      else if matchesChild rel rule.value then (true, SkipMode.children, rule.raw)
      else matchSkip rel isDir rest
    | SkipMode.exact =>
      if rel = rule.value then (true, SkipMode.exact, rule.raw)
      else if ¬rule.value.contains '/' ∧ pathBase rel = rule.value then
        (true, SkipMode.exact, rule.raw)
      else matchSkip rel isDir rest
    | SkipMode.glob =>
      if globMatch rule.value rel then (true, SkipMode.glob, rule.raw)
      else if ¬rule.value.contains '/' ∧ globMatch rule.value (pathBase rel) then
        (true, SkipMode.glob, rule.raw)
      else matchSkip rel isDir rest

/-- Metadata that controls how the walk recurses into a directory (childDir
in the Go source). -/
structure ChildDir where
  name : Str
  skipUpdate : Bool
  skipWalk : Bool
deriving DecidableEq, Repr

/-- From the processor: handleSkipDir records how a skipped directory should
adjust the resource lists. -/
def handleSkipDir (name : Str) (mode : SkipMode)
    (dirEntries : List Str) (childDirs : List ChildDir) :
    List Str × List ChildDir :=
  match mode with
  | SkipMode.exact => (dirEntries, childDirs)
  | SkipMode.children =>
    (dirEntries ++ [name], childDirs ++ [⟨name, false, true⟩])
  | SkipMode.subtree =>
    (dirEntries ++ [name], childDirs ++ [⟨name, true, false⟩])
  | SkipMode.glob => (dirEntries, childDirs)

/-- Paths are modeled as lists of name segments relative to the walk base. -/
abbrev SegPath := List Str

/-- Slash-joined rendering of a segment path. -/
def joinSegs : SegPath → Str
  | [] => []
  | [s] => s
  | s :: rest => s ++ '/' :: joinSegs rest

/-- A gitignore matcher chain: either the nil matcher or a directory frame
with its pattern list and the parent chain.  The children cache of the Go
struct memoizes construction and does not affect matching. -/
inductive GMatcher where
  | nilM : GMatcher
  | node (dir : SegPath) (patterns : List Str) (parent : GMatcher)

/-- Relative path of a queried path with respect to a matcher directory.
This models filepath.Rel plus ToSlash plus the dot-to-empty normalization
for the ancestor case the walker exercises; the Go fallback on a Rel error
is unreachable there. -/
def relStr (dir path : SegPath) : Str := joinSegs (path.drop dir.length)

/-- From internal/gitignore: matchesPattern reports whether rel matches the
pattern.  A trailing slash restricts the pattern to directories, glob
patterns go through the path.Match model, and anything else requires exact
equality. -/
def matchesPatternCore (rel pat2 : Str) : Bool :=
  if containsGlobChars pat2 then globMatch pat2 rel else decide (rel = pat2)

/-- Full matchesPattern with the trailing-slash directory restriction. -/
def matchesPattern (rel pat : Str) (isDir : Bool) : Bool :=
  if pat = [] then false
  else if hasSuffixStr pat "/".toList then
    if !isDir then false
    else
      let pat2 := trimSuffixStr pat "/".toList
      if pat2 = [] then true else matchesPatternCore rel pat2
  else matchesPatternCore rel pat

/-- From internal/gitignore: Ignored reports whether the given path matches
any loaded patterns, delegating to the parent chain when the local frame
does not match. -/
def Ignored : GMatcher → SegPath → Bool → Bool
  | GMatcher.nilM, _, _ => false
  | GMatcher.node dir pats parent, path, isDir =>
    if pats.any (fun p => matchesPattern (relStr dir path) p isDir) then true
    else Ignored parent path isDir

/-- The list of frames of a matcher chain, closest directory first. -/
def frames : GMatcher → List (SegPath × List Str)
  | GMatcher.nilM => []
  | GMatcher.node d ps par => (d, ps) :: frames par

/-- From internal/gitignore: Child links a new frame for a subdirectory to
the parent chain (the memoization cache is semantically transparent). -/
def childM (m : GMatcher) (dir : SegPath) (pats : List Str) : GMatcher :=
  GMatcher.node dir pats m

/-- From the processor: loadMatcher returns the matcher for a directory
from the parent chain, or the nil matcher when gitignore handling is off.
Both Go branches (root load and child load) produce a frame holding the
directory patterns over the parent chain. -/
def loadMatcher (opts : Options) (parent : GMatcher) (dirPath : SegPath)
    (pats : List Str) : GMatcher :=
  if !opts.useGitIgnore then GMatcher.nilM
  else GMatcher.node dirPath pats parent

/-- Node kinds of the YAML model. -/
inductive YKind where
  | scalar
  | mapping
  | sequence
  | document
deriving DecidableEq, Repr

/-- Minimal model of a yaml.Node: the kind, the scalar value, and a comment
field standing in for all formatting state attached to a node (two nodes
with equal values can differ here, which is what node reuse preserves). -/
structure YNode where
  kind : YKind
  value : Str
  lineComment : Str
deriving DecidableEq, Repr

/-- The loop of collectExistingResources: walks the sequence content,
recording first occurrences in the order list and mapping each value to a
node. -/
def collectLoop : (Str → Option YNode) → List Str → List YNode →
    (Str → Option YNode) × List Str
  | nodes, order, [] => (nodes, order)
  | nodes, order, node :: rest =>
    if node.kind ≠ YKind.scalar then collectLoop nodes order rest
    else
      let order2 := if (nodes node.value).isSome then order else order ++ [node.value]
      collectLoop (fun s => if s = node.value then some node else nodes s) order2 rest

/-- From the processor: collectExistingResources indexes the existing
sequence nodes, returning the value-to-node map and the extracted order. -/
def collectExistingResources (content : List YNode) :
    (Str → Option YNode) × List Str :=
  collectLoop (fun _ => none) [] content

/-- The last scalar node carrying a given value, the node the Go map ends
up holding for that value: a later occurrence wins over an earlier one. -/
def lastScalarNode (content : List YNode) (v : Str) : Option YNode :=
  match content with
  | [] => none
  | n :: rest =>
    match lastScalarNode rest v with
    | some m => some m
    | none =>
      if n.kind = YKind.scalar ∧ n.value = v then some n else none

/-- The header detection loop of ensureHeader: key positions are the even
indexes of the mapping content, and either identifying key counts as an
existing header. -/
def hasHeaderKey : List YNode → Bool
  | [] => false
  | k :: [] => k.value = "apiVersion".toList || k.value = "kind".toList
  | k :: _ :: rest =>
    k.value = "apiVersion".toList || k.value = "kind".toList || hasHeaderKey rest

/-- The four header nodes injected by ensureHeader. -/
def headerNodes : List YNode :=
  [⟨YKind.scalar, "apiVersion".toList, []⟩,
   ⟨YKind.scalar, "kustomize.config.k8s.io/v1beta1".toList, []⟩,
   ⟨YKind.scalar, "kind".toList, []⟩,
   ⟨YKind.scalar, "Kustomization".toList, []⟩]

/-- From the processor: ensureHeader injects the canonical header keys at
the top when missing and leaves the mapping untouched otherwise. -/
def ensureHeader (mapContent : List YNode) : List YNode :=
  if hasHeaderKey mapContent then mapContent else headerNodes ++ mapContent

/-- The bytes written by updateKustomization: the explicit document-start
marker followed by the encoded document. -/
def writtenFile (encoded : Str) : Str := "---\n".toList ++ encoded

mutual
/-- Entry of an abstract directory listing: a file or a subdirectory. -/
inductive FSEntry where
  | file (name : Str)
  | subdir (name : Str) (d : FSDir)
/-- Abstract filesystem tree.  A directory holds the extracted existing
resource order of its manifest (none when no kustomization file exists),
its gitignore pattern lines, and its entries in directory-listing order. -/
inductive FSDir where
  | mk (existing : Option (List Str)) (ignorePats : List Str)
      (entries : List FSEntry)
end

/-- Name of a directory entry. -/
def FSEntry.name : FSEntry → Str
  | FSEntry.file n => n
  | FSEntry.subdir n _ => n

/-- Directory test of a directory entry, modeling os.DirEntry.IsDir. -/
def FSEntry.isDir : FSEntry → Bool
  | FSEntry.file _ => false
  | FSEntry.subdir _ _ => true

/-- Entries of a directory. -/
def FSDir.entries : FSDir → List FSEntry
  | FSDir.mk _ _ es => es

/-- Extracted existing manifest order of a directory, when the manifest
exists. -/
def FSDir.existing : FSDir → Option (List Str)
  | FSDir.mk ex _ _ => ex

/-- Gitignore pattern lines of a directory. -/
def FSDir.ignorePats : FSDir → List Str
  | FSDir.mk _ ip _ => ip

/-- Resolution of a child directory by name, as the recursive walk does by
joining the directory path with the child name. -/
def findSubdir : List FSEntry → Str → Option FSDir
  | [], _ => none
  | FSEntry.file _ :: rest, n => findSubdir rest n
  | FSEntry.subdir m sub :: rest, n =>
    if m = n then some sub else findSubdir rest n

/-- Per-entry step of scanEntries: the contribution of one directory entry
to the directory list, the file list and the recursion metadata.  The Go
loop appends to three accumulators; the per-entry contributions are
concatenated in entry order, which yields the same lists. -/
def scanOne (opts : Options) (rules : List SkipRule) (matcher : GMatcher)
    (dirPath : SegPath) (e : FSEntry) :
    List Str × List Str × List ChildDir :=
  if isKustomization e.name then ([], [], [])
  else if !opts.includeDot && hasPrefixStr e.name ".".toList then ([], [], [])
  else if Ignored matcher (dirPath ++ [e.name]) e.isDir then ([], [], [])
  else if (matchSkip (joinSegs (dirPath ++ [e.name])) e.isDir rules).1 then
    (if !e.isDir then ([], [], [])
     else
       ((handleSkipDir e.name
          (matchSkip (joinSegs (dirPath ++ [e.name])) e.isDir rules).2.1
          [] []).1, [],
        (handleSkipDir e.name
          (matchSkip (joinSegs (dirPath ++ [e.name])) e.isDir rules).2.1
          [] []).2))
  else if e.isDir then ([e.name], [], [⟨e.name, false, false⟩])
  else if isYAML e.name then ([], [e.name], [])
  else ([], [], [])

/-- From the processor: scanEntries returns the directories, YAML files,
and recursion hints for a directory, applying ignores and skip patterns
deterministically in entry order. -/
def scanEntries (opts : Options) (rules : List SkipRule) (matcher : GMatcher)
    (dirPath : SegPath) : List FSEntry → List Str × List Str × List ChildDir
  | [] => ([], [], [])
  | e :: rest =>
    let tl := scanEntries opts rules matcher dirPath rest
    let hd := scanOne opts rules matcher dirPath e
    (hd.1 ++ tl.1, hd.2.1 ++ tl.2.1, hd.2.2 ++ tl.2.2)

/-- Result of a walk: accumulated statistics, the paths whose manifest file
was rewritten, and the visited directories paired with the skip-update flag
they were visited with. -/
structure WalkOut where
  stats : ResourceStats
  written : List SegPath
  visitedF : List (SegPath × Bool)
deriving DecidableEq, Repr

/-- From the processor: walkDir processes the current directory and recurses
into children unless marked as skipWalk.  The cancelled flag models the
context passed through the recursion; the Go code threads the context but
never consults it, and the model mirrors that faithfully.  File system
errors are outside the model. -/
def walkDir (opts : Options) (rules : List SkipRule) (cancelled : Bool) :
    GMatcher → SegPath → FSDir → Bool → WalkOut
  | parent, dirPath, d, skipUpdate =>
    let matcher := loadMatcher opts parent dirPath d.ignorePats
    let s := scanEntries opts rules matcher dirPath d.entries
    let ak := applyKustomization opts skipUpdate (d.existing.getD []) s.1 s.2.1
    let own : WalkOut :=
      ⟨ak.2, if ak.1 then [dirPath] else [], [(dirPath, skipUpdate)]⟩
    s.2.2.foldl (fun acc c =>
      if c.skipWalk then acc
      else
        match h : findSubdir d.entries c.name with
        | none => acc
        | some sub =>
          let r := walkDir opts rules cancelled matcher (dirPath ++ [c.name])
            sub c.skipUpdate
          ⟨addStats acc.stats r.stats, acc.written ++ r.written,
            acc.visitedF ++ r.visitedF⟩) own
termination_by _ _ d _ => sizeOf d
decreasing_by
  have key : ∀ (es : List FSEntry) (n : Str) (sub2 : FSDir),
      findSubdir es n = some sub2 → sizeOf sub2 < sizeOf es := by
    intro es
    induction es with
    | nil => intro n sub2 hfind; simp [findSubdir] at hfind
    | cons e rest ih =>
      intro n sub2 hfind
      cases e with
      | file m =>
        have h2 := ih n sub2 (by simpa [findSubdir] using hfind)
        have h3 : sizeOf rest < sizeOf (FSEntry.file m :: rest) := by
          simp
        omega
      | subdir m s2 =>
        rw [findSubdir] at hfind
        by_cases hm : m = n
        · simp [hm] at hfind
          subst hfind
          simp
          omega
        · have h2 := ih n sub2 (by simpa [hm] using hfind)
          simp
          omega
  have h1 := key d.entries c.name sub h
  have h2 : sizeOf d.entries ≤ sizeOf d := by
    cases d with
    | mk ex ip es => simp [FSDir.entries]
  omega

/-- Contribution of one child entry to the walk result: nothing when the
recursion is suppressed or the name resolves to no subdirectory, the
recursive walk otherwise. -/
def childOutW (opts : Options) (rules : List SkipRule) (cancelled : Bool)
    (matcher : GMatcher) (dirPath : SegPath) (entries : List FSEntry)
    (c : ChildDir) : WalkOut :=
  if c.skipWalk then ⟨⟨0, 0, 0, 0, 0⟩, [], []⟩
  else
    match findSubdir entries c.name with
    | none => ⟨⟨0, 0, 0, 0, 0⟩, [], []⟩
    | some sub =>
      walkDir opts rules cancelled matcher (dirPath ++ [c.name]) sub c.skipUpdate

/-- Lookup of the directory node at a relative path in the tree. -/
def FSDir.lookup : FSDir → SegPath → Option FSDir
  | d, [] => some d
  | d, n :: rest =>
    match findSubdir d.entries n with
    | some sub => FSDir.lookup sub rest
    | none => none

/-- Well-formedness of a filesystem tree: sibling entry names are distinct
at every level, as guaranteed by a real directory listing. -/
inductive FSWF : FSDir → Prop where
  | mk : ∀ (ex : Option (List Str)) (pats : List Str) (entries : List FSEntry),
      (entries.map FSEntry.name).Nodup →
      (∀ n sub, FSEntry.subdir n sub ∈ entries → FSWF sub) →
      FSWF (FSDir.mk ex pats entries)

/-! Helper lemmas about first-occurrence deduplication. -/

lemma dp_nil {α : Type} [DecidableEq α] : dp ([] : List α) = [] := by
  rw [dp]

lemma dp_cons {α : Type} [DecidableEq α] (x : α) (xs : List α) :
    dp (x :: xs) = x :: dp (xs.filter (fun a => decide (a ≠ x))) := by
  rw [dp]

lemma dedupGo_eq {α : Type} [DecidableEq α] (l : List α) :
    ∀ (seen out : List α),
      dedupGo seen out l = out ++ dp (l.filter (fun a => decide (a ∉ seen))) := by
  induction l with
  | nil => intro seen out; simp [dedupGo, dp_nil]
  | cons v rest ih =>
    intro seen out
    by_cases hv : v ∈ seen
    · rw [dedupGo, if_pos hv, ih]
      simp [List.filter_cons, hv]
    · rw [dedupGo, if_neg hv, ih]
      have hstep : List.filter (fun a => decide (a ∉ seen)) (v :: rest)
          = v :: List.filter (fun a => decide (a ∉ seen)) rest := by
        simp [List.filter_cons, hv]
      rw [hstep, dp_cons, List.filter_filter]
      have hfil : rest.filter (fun a => decide (a ≠ v) && decide (a ∉ seen))
          = rest.filter (fun a => decide (a ∉ v :: seen)) := by
        apply List.filter_congr
        intro a _
        by_cases h1 : a = v
        · simp [h1]
        · by_cases h2 : a ∈ seen <;> simp [h1, h2]
      rw [hfil]
      simp

lemma DedupPreserve_eq_dp {α : Type} [DecidableEq α] (l : List α) :
    DedupPreserve l = dp l := by
  rw [DedupPreserve, dedupGo_eq]
  simp

lemma dp_sublist {α : Type} [DecidableEq α] : ∀ (n : Nat) (l : List α),
    l.length ≤ n → (dp l).Sublist l := by
  intro n
  induction n with
  | zero =>
    intro l hl
    have : l = [] := List.length_eq_zero.mp (Nat.le_zero.mp hl)
    subst this; simp [dp_nil]
  | succ n ih =>
    intro l hl
    cases l with
    | nil => simp [dp_nil]
    | cons x xs =>
      rw [dp_cons]
      apply List.Sublist.cons₂
      have h1 : (xs.filter (fun a => decide (a ≠ x))).length ≤ n := by
        have := List.length_filter_le (fun a => decide (a ≠ x)) xs
        simp only [List.length_cons] at hl
        omega
      exact (ih _ h1).trans (List.filter_sublist xs)

lemma mem_dp {α : Type} [DecidableEq α] : ∀ (n : Nat) (l : List α) (a : α),
    l.length ≤ n → (a ∈ dp l ↔ a ∈ l) := by
  intro n
  induction n with
  | zero =>
    intro l a hl
    have : l = [] := List.length_eq_zero.mp (Nat.le_zero.mp hl)
    subst this; simp [dp_nil]
  | succ n ih =>
    intro l a hl
    cases l with
    | nil => simp [dp_nil]
    | cons x xs =>
      rw [dp_cons]
      have h1 : (xs.filter (fun a => decide (a ≠ x))).length ≤ n := by
        have := List.length_filter_le (fun a => decide (a ≠ x)) xs
        simp only [List.length_cons] at hl
        omega
      constructor
      · intro h
        rcases List.mem_cons.mp h with h | h
        · simp [h]
        · have := (ih _ a h1).mp h
          rcases List.mem_filter.mp this with ⟨h2, _⟩
          exact List.mem_cons_of_mem _ h2
      · intro h
        rcases List.mem_cons.mp h with h | h
        · simp [h]
        · by_cases hax : a = x
          · simp [hax]
          · apply List.mem_cons_of_mem
            apply (ih _ a h1).mpr
            exact List.mem_filter.mpr ⟨h, by simp [hax]⟩

lemma nodup_dp {α : Type} [DecidableEq α] : ∀ (n : Nat) (l : List α),
    l.length ≤ n → (dp l).Nodup := by
  intro n
  induction n with
  | zero =>
    intro l hl
    have : l = [] := List.length_eq_zero.mp (Nat.le_zero.mp hl)
    subst this; simp [dp_nil]
  | succ n ih =>
    intro l hl
    cases l with
    | nil => simp [dp_nil]
    | cons x xs =>
      rw [dp_cons]
      have h1 : (xs.filter (fun a => decide (a ≠ x))).length ≤ n := by
        have := List.length_filter_le (fun a => decide (a ≠ x)) xs
        simp only [List.length_cons] at hl
        omega
      refine List.nodup_cons.mpr ⟨?_, ih _ h1⟩
      intro hx
      have := (mem_dp _ _ x (le_refl _)).mp hx
      rcases List.mem_filter.mp this with ⟨_, h2⟩
      simp at h2

lemma filter_dp {α : Type} [DecidableEq α] (p : α → Bool) :
    ∀ (n : Nat) (l : List α), l.length ≤ n →
      (dp l).filter p = dp (l.filter p) := by
  intro n
  induction n with
  | zero =>
    intro l hl
    have : l = [] := List.length_eq_zero.mp (Nat.le_zero.mp hl)
    subst this; simp [dp_nil]
  | succ n ih =>
    intro l hl
    cases l with
    | nil => simp [dp_nil]
    | cons x xs =>
      have h1 : (xs.filter (fun a => decide (a ≠ x))).length ≤ n := by
        have := List.length_filter_le (fun a => decide (a ≠ x)) xs
        simp only [List.length_cons] at hl
        omega
      rw [dp_cons]
      by_cases hp : p x
      · rw [List.filter_cons_of_pos hp, ih _ h1, List.filter_cons_of_pos hp,
          dp_cons, List.filter_filter, List.filter_filter]
        have hcomm : xs.filter (fun a => p a && decide (a ≠ x))
            = xs.filter (fun a => decide (a ≠ x) && p a) := by
          apply List.filter_congr
          intro a _
          exact Bool.and_comm _ _
        rw [hcomm]
      · rw [List.filter_cons_of_neg hp, ih _ h1, List.filter_cons_of_neg hp,
          List.filter_filter]
        congr 1
        apply List.filter_congr
        intro a _
        by_cases hax : a = x
        · subst hax; simp [hp]
        · simp [hax]

lemma filter_self_idem {α : Type} (p : α → Bool) (l : List α) :
    (l.filter p).filter p = l.filter p :=
  List.filter_eq_self.mpr (fun _ ha => (List.mem_filter.mp ha).2)

lemma dp_middle_aux {α : Type} [DecidableEq α] : ∀ (n : Nat) (A B C : List α),
    A.length + B.length ≤ n → dp (A ++ dp B ++ C) = dp (A ++ B ++ C) := by
  intro n
  induction n with
  | zero =>
    intro A B C h
    have hA : A = [] := List.length_eq_zero.mp (by omega)
    have hB : B = [] := List.length_eq_zero.mp (by omega)
    subst hA; subst hB
    simp [dp_nil]
  | succ n ih =>
    intro A B C h
    cases A with
    | nil =>
      cases B with
      | nil => simp [dp_nil]
      | cons x B2 =>
        simp only [List.nil_append]
        conv_rhs => rw [List.cons_append, dp_cons]
        conv_lhs => rw [dp_cons, List.cons_append, dp_cons]
        congr 1
        rw [List.filter_append,
          filter_dp _ _ _ (le_refl (B2.filter (fun a => decide (a ≠ x))).length),
          filter_self_idem]
        have hlen : (B2.filter (fun a => decide (a ≠ x))).length ≤ n := by
          have := List.length_filter_le (fun a => decide (a ≠ x)) B2
          simp only [List.length_cons, List.length_nil] at h
          omega
        have := ih [] (B2.filter (fun a => decide (a ≠ x)))
          (C.filter (fun a => decide (a ≠ x))) (by simpa using hlen)
        simp only [List.nil_append] at this
        rw [this, List.filter_append]
    | cons x A2 =>
      conv_rhs => rw [List.cons_append, List.cons_append, dp_cons]
      conv_lhs => rw [List.cons_append, List.cons_append, dp_cons]
      congr 1
      rw [List.filter_append, List.filter_append,
        filter_dp _ _ _ (le_refl B.length)]
      have hlen : (A2.filter (fun a => decide (a ≠ x))).length +
          (B.filter (fun a => decide (a ≠ x))).length ≤ n := by
        have h1 := List.length_filter_le (fun a => decide (a ≠ x)) A2
        have h2 := List.length_filter_le (fun a => decide (a ≠ x)) B
        simp only [List.length_cons] at h
        omega
      rw [ih _ _ _ hlen, ← List.filter_append, ← List.filter_append]

lemma dp_middle {α : Type} [DecidableEq α] (A B C : List α) :
    dp (A ++ dp B ++ C) = dp (A ++ B ++ C) :=
  dp_middle_aux (A.length + B.length) A B C (le_refl _)

/-! Helper lemmas about the sorting model. -/

lemma sortStr_sorted (l : List Str) : (sortStr l).Sorted (· ≤ ·) :=
  List.sorted_insertionSort _ l

lemma mem_sortStr (a : Str) (l : List Str) : a ∈ sortStr l ↔ a ∈ l :=
  (List.perm_insertionSort (· ≤ ·) l).mem_iff

lemma sortStr_eq_self {l : List Str} (h : l.Sorted (· ≤ ·)) : sortStr l = l :=
  List.Sorted.insertionSort_eq h

/-! Helper lemmas about the group order normalization. -/

lemma normLoop_spec : ∀ (parts seen out : List Str),
    out.Nodup → (∀ g, g ∈ seen ↔ g ∈ out) →
    (∀ g, g ∈ out → g ∈ defaultResourceOrder) →
    (normLoop seen out parts).2.Nodup ∧
      (∀ g, g ∈ (normLoop seen out parts).1 ↔ g ∈ (normLoop seen out parts).2) ∧
      (∀ g, g ∈ (normLoop seen out parts).2 → g ∈ defaultResourceOrder) := by
  intro parts
  induction parts with
  | nil =>
    intro seen out h1 h2 h3
    exact ⟨h1, h2, h3⟩
  | cons part rest ih =>
    intro seen out h1 h2 h3
    rw [normLoop]
    by_cases hg1 : toLowerStr (trimSpaceStr part) = []
    · simp only [hg1, if_pos rfl]
      exact ih seen out h1 h2 h3
    · rw [if_neg hg1]
      by_cases hg2 : toLowerStr (trimSpaceStr part) ≠ resourceGroupRemote ∧
          toLowerStr (trimSpaceStr part) ≠ resourceGroupDirs ∧
          toLowerStr (trimSpaceStr part) ≠ resourceGroupFiles
      · rw [if_pos hg2]
        exact ih seen out h1 h2 h3
      · rw [if_neg hg2]
        by_cases hg3 : toLowerStr (trimSpaceStr part) ∈ seen
        · rw [if_pos hg3]
          exact ih seen out h1 h2 h3
        · rw [if_neg hg3]
          apply ih
          · exact List.Nodup.append h1 (List.nodup_singleton _)
              (by
                intro a ha hb
                rcases List.mem_singleton.mp hb with rfl
                exact hg3 ((h2 _).mpr ha))
          · intro g
            constructor
            · intro hm
              rcases List.mem_cons.mp hm with rfl | hm
              · simp
              · exact List.mem_append_left _ ((h2 g).mp hm)
            · intro hm
              rcases List.mem_append.mp hm with hm | hm
              · exact List.mem_cons_of_mem _ ((h2 g).mpr hm)
              · rcases List.mem_singleton.mp hm with rfl
                simp
          · intro g hm
            rcases List.mem_append.mp hm with hm | hm
            · exact h3 g hm
            · rcases List.mem_singleton.mp hm with rfl
              rw [defaultResourceOrder]
              push_neg at hg2
              by_cases e1 : toLowerStr (trimSpaceStr part) = resourceGroupRemote
              · simp [e1]
              · by_cases e2 : toLowerStr (trimSpaceStr part) = resourceGroupDirs
                · simp [e2]
                · simp [e1, e2, hg2 e1 e2]

lemma appendMissing_spec (seen : List Str) : ∀ (ds out : List Str),
    ds.foldl (fun o g => if g ∈ seen then o else o ++ [g]) out
      = out ++ ds.filter (fun g => decide (g ∉ seen)) := by
  intro ds
  induction ds with
  | nil => intro out; simp
  | cons g rest ih =>
    intro out
    by_cases hm : g ∈ seen
    · simp only [List.foldl_cons, if_pos hm, ih]
      have : List.filter (fun g => decide (g ∉ seen)) (g :: rest)
          = rest.filter (fun g => decide (g ∉ seen)) := by
        simp [List.filter_cons, hm]
      rw [this]
    · simp only [List.foldl_cons, if_neg hm, ih]
      have : List.filter (fun g => decide (g ∉ seen)) (g :: rest)
          = g :: rest.filter (fun g => decide (g ∉ seen)) := by
        simp [List.filter_cons, hm]
      rw [this]
      simp

lemma norm_perm (parts : List Str) :
    (normalizeResourceOrder parts).Perm defaultResourceOrder := by
  by_cases hp : parts = []
  · simp [normalizeResourceOrder, hp]
  · have hspec := normLoop_spec parts [] [] (List.nodup_nil) (by simp) (by simp)
    obtain ⟨hnd, hiff, hsub⟩ := hspec
    rw [normalizeResourceOrder, if_neg hp]
    simp only [appendMissing_spec]
    set so := normLoop [] [] parts with hso
    set out2 := so.2 ++ defaultResourceOrder.filter (fun g => decide (g ∉ so.1))
      with hout2
    have hmem : ∀ g, g ∈ out2 ↔ g ∈ defaultResourceOrder := by
      intro g
      rw [hout2]
      constructor
      · intro hm
        rcases List.mem_append.mp hm with hm | hm
        · exact hsub g hm
        · exact (List.mem_filter.mp hm).1
      · intro hm
        by_cases hseen : g ∈ so.1
        · exact List.mem_append_left _ ((hiff g).mp hseen)
        · exact List.mem_append_right _
            (List.mem_filter.mpr ⟨hm, by simpa using hseen⟩)
    have hnd2 : out2.Nodup := by
      rw [hout2]
      apply List.Nodup.append hnd
      · exact List.Nodup.filter _ (by rw [defaultResourceOrder]; decide)
      · intro a ha hb
        rcases List.mem_filter.mp hb with ⟨_, hnot⟩
        have : a ∈ so.1 := (hiff a).mpr ha
        simp [this] at hnot
    by_cases hempty : out2 = []
    · rw [if_pos hempty]
    · rw [if_neg hempty]
      exact (List.perm_ext_iff_of_nodup hnd2
        (by rw [defaultResourceOrder]; decide)).mpr hmem

/-! Helper lemmas about mergeResources. -/

lemma mergeFold_eq (remote dirs files : List Str) : ∀ (order acc : List Str),
    order.foldl (fun acc group =>
      if group = resourceGroupRemote then acc ++ remote
      else if group = resourceGroupDirs then acc ++ dirs
      else if group = resourceGroupFiles then acc ++ files
      else acc) acc
      = acc ++ (order.map (selGroup remote dirs files)).flatten := by
  intro order
  induction order with
  | nil => intro acc; simp
  | cons g rest ih =>
    intro acc
    rw [List.foldl_cons, ih, List.map_cons, List.flatten_cons]
    have hne1 : resourceGroupDirs ≠ resourceGroupRemote := by decide
    have hne2 : resourceGroupFiles ≠ resourceGroupRemote := by decide
    have hne3 : resourceGroupFiles ≠ resourceGroupDirs := by decide
    by_cases h1 : g = resourceGroupRemote
    · simp [selGroup, h1]
    · by_cases h2 : g = resourceGroupDirs
      · simp [selGroup, h1, h2, hne1]
      · by_cases h3 : g = resourceGroupFiles
        · simp [selGroup, h1, h2, h3, hne2, hne3]
        · simp [selGroup, h1, h2, h3]

lemma mergeResources_eq (opts : Options) (E D F : List Str) :
    mergeResources opts E D F
      = dp (((normalizeResourceOrder opts.resourceOrder).map
          (selGroup (sortStr (E.filter (fun v => isRemoteResource v)))
            (sortStr (decorateSubdirs opts.dirSlash D))
            (sortStr F))).flatten) := by
  simp only [mergeResources, mergeFold_eq, List.nil_append, DedupPreserve_eq_dp]

lemma selGroup_remote (r d f : List Str) :
    selGroup r d f resourceGroupRemote = r := by
  simp [selGroup]

lemma selGroup_dirs (r d f : List Str) : selGroup r d f resourceGroupDirs = d := by
  rw [selGroup, if_neg (by decide), if_pos rfl]

lemma selGroup_files (r d f : List Str) :
    selGroup r d f resourceGroupFiles = f := by
  rw [selGroup, if_neg (by decide), if_neg (by decide), if_pos rfl]

lemma selGroup_ne_remote {g : Str} (h : g ≠ resourceGroupRemote)
    (r r2 d f : List Str) : selGroup r d f g = selGroup r2 d f g := by
  simp [selGroup, h]

lemma mem_mergeResources (opts : Options) (E D F : List Str) (x : Str) :
    x ∈ mergeResources opts E D F ↔
      x ∈ decorateSubdirs opts.dirSlash D ∨ x ∈ F ∨
        (x ∈ E ∧ isRemoteResource x = true) := by
  rw [mergeResources_eq, mem_dp _ _ _ (le_refl _), List.mem_flatten]
  constructor
  · rintro ⟨l, hl, hx⟩
    rcases List.mem_map.mp hl with ⟨g, hgs, rfl⟩
    have hgd : g ∈ defaultResourceOrder :=
      ((norm_perm opts.resourceOrder).mem_iff).mp hgs
    rw [defaultResourceOrder] at hgd
    rcases List.mem_cons.mp hgd with rfl | hgd
    · rw [selGroup_remote] at hx
      rcases List.mem_filter.mp ((mem_sortStr _ _).mp hx) with ⟨h1, h2⟩
      exact Or.inr (Or.inr ⟨h1, h2⟩)
    rcases List.mem_cons.mp hgd with rfl | hgd
    · rw [selGroup_dirs] at hx
      exact Or.inl ((mem_sortStr _ _).mp hx)
    rcases List.mem_cons.mp hgd with rfl | hgd
    · rw [selGroup_files] at hx
      exact Or.inr (Or.inl ((mem_sortStr _ _).mp hx))
    · simp at hgd
  · have hmem : ∀ g, g ∈ defaultResourceOrder →
        g ∈ normalizeResourceOrder opts.resourceOrder := by
      intro g hg
      exact ((norm_perm opts.resourceOrder).mem_iff).mpr hg
    rintro (hx | hx | ⟨hxE, hxR⟩)
    · refine ⟨_, List.mem_map.mpr ⟨resourceGroupDirs,
        hmem _ (by rw [defaultResourceOrder]; simp), rfl⟩, ?_⟩
      rw [selGroup_dirs]
      exact (mem_sortStr _ _).mpr hx
    · refine ⟨_, List.mem_map.mpr ⟨resourceGroupFiles,
        hmem _ (by rw [defaultResourceOrder]; simp), rfl⟩, ?_⟩
      rw [selGroup_files]
      exact (mem_sortStr _ _).mpr hx
    · refine ⟨_, List.mem_map.mpr ⟨resourceGroupRemote,
        hmem _ (by rw [defaultResourceOrder]; simp), rfl⟩, ?_⟩
      rw [selGroup_remote]
      exact (mem_sortStr _ _).mpr (List.mem_filter.mpr ⟨hxE, hxR⟩)

lemma nodup_mergeResources (opts : Options) (E D F : List Str) :
    (mergeResources opts E D F).Nodup := by
  rw [mergeResources_eq]
  exact nodup_dp _ _ (le_refl _)

lemma filter_flatten {α : Type} (p : α → Bool) : ∀ (ls : List (List α)),
    ls.flatten.filter p = (ls.map (fun l => l.filter p)).flatten := by
  intro ls
  induction ls with
  | nil => simp
  | cons l rest ih => simp [List.filter_append, ih]

lemma flatten_single {α β : Type} [DecidableEq α] (f : α → List β) (g0 : α) :
    ∀ (σ : List α),
    σ.count g0 = 1 → (∀ g ∈ σ, g ≠ g0 → f g = []) →
    (σ.map f).flatten = f g0 := by
  intro σ
  induction σ with
  | nil => intro h; simp at h
  | cons g rest ih =>
    intro hc hz
    by_cases hg : g = g0
    · subst hg
      rw [List.count_cons_self] at hc
      have hc0 : List.count g rest = 0 := by omega
      have hnotmem : g ∉ rest := List.count_eq_zero.mp hc0
      have hrest : ∀ l ∈ rest.map f, l = [] := by
        intro l hl
        rcases List.mem_map.mp hl with ⟨a, ha, rfl⟩
        apply hz a (List.mem_cons_of_mem _ ha)
        intro hag
        exact hnotmem (hag ▸ ha)
      rw [List.map_cons, List.flatten_cons, List.flatten_eq_nil_iff.mpr hrest,
        List.append_nil]
    · rw [List.count_cons_of_ne (fun h => hg h.symm)] at hc
      rw [List.map_cons, List.flatten_cons, hz g (List.mem_cons_self _ _) hg,
        List.nil_append]
      exact ih hc (fun a ha => hz a (List.mem_cons_of_mem _ ha))

lemma count_one_split {α : Type} [DecidableEq α] {σ : List α} {a : α}
    (h : σ.count a = 1) :
    ∃ σ₁ σ₂, σ = σ₁ ++ a :: σ₂ ∧ a ∉ σ₁ ∧ a ∉ σ₂ := by
  have hm : a ∈ σ := by
    by_contra hn
    rw [List.count_eq_zero_of_not_mem hn] at h
    omega
  rcases List.append_of_mem hm with ⟨σ₁, σ₂, rfl⟩
  rw [List.count_append, List.count_cons_self] at h
  refine ⟨σ₁, σ₂, rfl, ?_, ?_⟩
  · intro hmem
    have hpos : 0 < List.count a σ₁ := List.count_pos_iff.mpr hmem
    omega
  · intro hmem
    have hpos : 0 < List.count a σ₂ := List.count_pos_iff.mpr hmem
    omega

lemma notRemote_of_count_slash {s : Str} (h : s.count '/' ≤ 1) :
    isRemoteResource s = false := by
  by_contra hc
  rw [Bool.not_eq_false, isRemoteResource, Bool.or_eq_true] at hc
  have h2 : (2 : Nat) ≤ s.count '/' := by
    rcases hc with hc | hc
    · have hp := List.isPrefixOf_iff_prefix.mp hc
      have := hp.sublist.count_le '/'
      have hcount : List.count '/' "http://".toList = 2 := by decide
      omega
    · have hp := List.isPrefixOf_iff_prefix.mp hc
      have := hp.sublist.count_le '/'
      have hcount : List.count '/' "https://".toList = 2 := by decide
      omega
  omega

lemma count_slash_zero {s : Str} (h : ('/' : Char) ∉ s) : s.count '/' = 0 :=
  List.count_eq_zero_of_not_mem h

lemma decorate_count_slash {b : Bool} {D : List Str}
    (hD : ∀ s ∈ D, ('/' : Char) ∉ s) :
    ∀ s ∈ decorateSubdirs b D, s.count '/' ≤ 1 := by
  intro s hs
  rw [decorateSubdirs] at hs
  by_cases hb : b
  · simp only [hb, Bool.not_true, Bool.false_eq_true, if_false] at hs
    rcases List.mem_map.mp hs with ⟨t, ht, rfl⟩
    have hsuf : hasSuffixStr t "/".toList = false := by
      by_contra hcon
      rw [Bool.not_eq_false, hasSuffixStr, List.isSuffixOf_iff_suffix] at hcon
      exact hD t ht (hcon.sublist.mem (by simp))
    have hcut : cutSuffixSlash t = none := by
      rw [cutSuffixSlash, hsuf]
      simp
    rw [hcut]
    show (t ++ ['/']).count '/' ≤ 1
    rw [List.count_append, count_slash_zero (hD t ht)]
    simp
  · simp only [hb] at hs
    simp only [Bool.not_false, if_true] at hs
    rw [count_slash_zero (hD s hs)]
    omega

lemma count_defaults_remote :
    defaultResourceOrder.count resourceGroupRemote = 1 := by
  rw [defaultResourceOrder]
  decide

lemma merge_idem (opts : Options) (E D F : List Str)
    (hD : ∀ s ∈ D, ('/' : Char) ∉ s) (hF : ∀ s ∈ F, ('/' : Char) ∉ s) :
    mergeResources opts (mergeResources opts E D F) D F
      = mergeResources opts E D F := by
  have hDnR : ∀ s ∈ sortStr (decorateSubdirs opts.dirSlash D),
      isRemoteResource s = false := by
    intro s hs
    exact notRemote_of_count_slash
      (decorate_count_slash hD s ((mem_sortStr _ _).mp hs))
  have hFnR : ∀ s ∈ sortStr F, isRemoteResource s = false := by
    intro s hs
    exact notRemote_of_count_slash
      (le_of_eq (count_slash_zero (hF s ((mem_sortStr _ _).mp hs))) |>.trans
        (by omega))
  have hRR : ∀ s ∈ sortStr (E.filter (fun v => isRemoteResource v)),
      isRemoteResource s = true := by
    intro s hs
    exact (List.mem_filter.mp ((mem_sortStr _ _).mp hs)).2
  have hcount := ((norm_perm opts.resourceOrder).count_eq
    resourceGroupRemote).trans (show List.count resourceGroupRemote
      defaultResourceOrder = 1 by rw [defaultResourceOrder]; decide)
  -- the remote entries of the merged list are exactly the deduplicated
  -- sorted remote entries of the existing list
  have hfilter : (mergeResources opts E D F).filter (fun v => isRemoteResource v)
      = dp (sortStr (E.filter (fun v => isRemoteResource v))) := by
    rw [mergeResources_eq, filter_dp _ _ _ (le_refl _), filter_flatten,
      List.map_map]
    have hmapeq : ((normalizeResourceOrder opts.resourceOrder).map
          ((fun l => l.filter (fun v => isRemoteResource v)) ∘
            selGroup (sortStr (E.filter (fun v => isRemoteResource v)))
              (sortStr (decorateSubdirs opts.dirSlash D)) (sortStr F)))
        = (normalizeResourceOrder opts.resourceOrder).map
            (fun g => if g = resourceGroupRemote then
              sortStr (E.filter (fun v => isRemoteResource v)) else []) := by
      apply List.map_congr_left
      intro g hg
      have hgd : g ∈ defaultResourceOrder :=
        ((norm_perm opts.resourceOrder).mem_iff).mp hg
      simp only [Function.comp_apply]
      by_cases h1 : g = resourceGroupRemote
      · rw [h1, selGroup_remote, if_pos rfl]
        exact List.filter_eq_self.mpr hRR
      · rw [if_neg h1]
        rw [defaultResourceOrder] at hgd
        rcases List.mem_cons.mp hgd with rfl | hgd
        · exact absurd rfl h1
        rcases List.mem_cons.mp hgd with rfl | hgd
        · rw [selGroup_dirs]
          exact List.filter_eq_nil_iff.mpr (fun a ha => by simp [hDnR a ha])
        rcases List.mem_cons.mp hgd with rfl | hgd
        · rw [selGroup_files]
          exact List.filter_eq_nil_iff.mpr (fun a ha => by simp [hFnR a ha])
        · simp at hgd
    rw [hmapeq, flatten_single _ _ _ hcount (fun g _ hgne => by simp [hgne]),
      if_pos rfl]
  have hsorted : (dp (sortStr (E.filter (fun v => isRemoteResource v)))).Sorted
      (· ≤ ·) :=
    List.Pairwise.sublist (dp_sublist _ _ (le_refl _)) (sortStr_sorted _)
  have hR2 : sortStr ((mergeResources opts E D F).filter
        (fun v => isRemoteResource v))
      = dp (sortStr (E.filter (fun v => isRemoteResource v))) := by
    rw [hfilter]
    exact sortStr_eq_self hsorted
  rw [mergeResources_eq opts (mergeResources opts E D F) D F, hR2,
    mergeResources_eq opts E D F]
  obtain ⟨σ₁, σ₂, hsplit, hn1, hn2⟩ := count_one_split hcount
  rw [hsplit]
  have hmap1 : ∀ (r : List Str), σ₁.map (selGroup r
        (sortStr (decorateSubdirs opts.dirSlash D)) (sortStr F))
      = σ₁.map (selGroup (sortStr (E.filter (fun v => isRemoteResource v)))
        (sortStr (decorateSubdirs opts.dirSlash D)) (sortStr F)) := by
    intro r
    apply List.map_congr_left
    intro g hg
    exact selGroup_ne_remote (fun hgr => hn1 (hgr ▸ hg)) _ _ _ _
  have hmap2 : ∀ (r : List Str), σ₂.map (selGroup r
        (sortStr (decorateSubdirs opts.dirSlash D)) (sortStr F))
      = σ₂.map (selGroup (sortStr (E.filter (fun v => isRemoteResource v)))
        (sortStr (decorateSubdirs opts.dirSlash D)) (sortStr F)) := by
    intro r
    apply List.map_congr_left
    intro g hg
    exact selGroup_ne_remote (fun hgr => hn2 (hgr ▸ hg)) _ _ _ _
  rw [List.map_append, List.map_cons, List.flatten_append, List.flatten_cons,
    List.map_append, List.map_cons, List.flatten_append, List.flatten_cons,
    hmap1, hmap2, selGroup_remote, selGroup_remote,
    ← List.append_assoc, ← List.append_assoc]
  exact dp_middle _ _ _

/-- C1: for every existing list E and discovered directory and file name
sets D and F (directory-listing base names, hence slash-free), the merge
output is duplicate-free, its members are exactly the distinct entries of
decorated(D), F and the remote entries of E, and merging its own output
again with the same D and F reproduces it unchanged. -/
theorem C1_merge_exactly_once_and_idempotent (opts : Options) (E D F : List Str)
    (hD : ∀ s ∈ D, ('/' : Char) ∉ s) (hF : ∀ s ∈ F, ('/' : Char) ∉ s) :
    (mergeResources opts E D F).Nodup ∧
    (mergeResources opts E D F).toFinset
      = (decorateSubdirs opts.dirSlash D).toFinset ∪ F.toFinset ∪
        (E.filter (fun v => isRemoteResource v)).toFinset ∧
    mergeResources opts (mergeResources opts E D F) D F
      = mergeResources opts E D F := by
  refine ⟨nodup_mergeResources opts E D F, ?_, merge_idem opts E D F hD hF⟩
  ext x
  simp only [List.mem_toFinset, Finset.mem_union]
  rw [mem_mergeResources]
  constructor
  · rintro (h | h | ⟨h1, h2⟩)
    · exact Or.inl (Or.inl h)
    · exact Or.inl (Or.inr h)
    · exact Or.inr (List.mem_filter.mpr ⟨h1, h2⟩)
  · rintro ((h | h) | h)
    · exact Or.inl h
    · exact Or.inr (Or.inl h)
    · rcases List.mem_filter.mp h with ⟨h1, h2⟩
      exact Or.inr (Or.inr ⟨h1, h2⟩)

/-- Witness for C1 at a concrete input. -/
theorem C1_witness :
    (mergeResources ⟨[], false, false, true, []⟩
        ["https://x".toList] ["b".toList] ["a.yaml".toList]).Nodup ∧
    (mergeResources ⟨[], false, false, true, []⟩
        ["https://x".toList] ["b".toList] ["a.yaml".toList]).toFinset
      = (decorateSubdirs true ["b".toList]).toFinset ∪
        ["a.yaml".toList].toFinset ∪
        (["https://x".toList].filter (fun v => isRemoteResource v)).toFinset ∧
    mergeResources ⟨[], false, false, true, []⟩
        (mergeResources ⟨[], false, false, true, []⟩
          ["https://x".toList] ["b".toList] ["a.yaml".toList])
        ["b".toList] ["a.yaml".toList]
      = mergeResources ⟨[], false, false, true, []⟩
          ["https://x".toList] ["b".toList] ["a.yaml".toList] :=
  C1_merge_exactly_once_and_idempotent ⟨[], false, false, true, []⟩
    ["https://x".toList] ["b".toList] ["a.yaml".toList]
    (by decide) (by decide)

/-- C10: every entry of the merged final list is a possibly slash-decorated
discovered directory, a discovered file, or a remote entry of the existing
list; consequently a non-remote existing entry that is not rediscovered is
absent from the final list. -/
theorem C10_merge_membership (opts : Options) (E D F : List Str) :
    (∀ x ∈ mergeResources opts E D F,
        x ∈ decorateSubdirs opts.dirSlash D ∨ x ∈ F ∨
          (x ∈ E ∧ isRemoteResource x = true)) ∧
    (∀ x ∈ E, isRemoteResource x = false →
      x ∉ decorateSubdirs opts.dirSlash D → x ∉ F →
      x ∉ mergeResources opts E D F) := by
  constructor
  · intro x hx
    exact (mem_mergeResources opts E D F x).mp hx
  · intro x _ hrem hd hf hmem
    rcases (mem_mergeResources opts E D F x).mp hmem with h | h | ⟨_, h2⟩
    · exact hd h
    · exact hf h
    · rw [hrem] at h2
      exact Bool.false_ne_true h2

/-- Witness for C10 at a concrete input. -/
theorem C10_witness :
    (∀ x ∈ mergeResources ⟨[], false, false, false, []⟩
        ["stale".toList] ["d".toList] ["f.yaml".toList],
        x ∈ decorateSubdirs false ["d".toList] ∨ x ∈ ["f.yaml".toList] ∨
          (x ∈ ["stale".toList] ∧ isRemoteResource x = true)) ∧
    (∀ x ∈ ["stale".toList], isRemoteResource x = false →
      x ∉ decorateSubdirs false ["d".toList] → x ∉ ["f.yaml".toList] →
      x ∉ mergeResources ⟨[], false, false, false, []⟩
        ["stale".toList] ["d".toList] ["f.yaml".toList]) :=
  C10_merge_membership ⟨[], false, false, false, []⟩
    ["stale".toList] ["d".toList] ["f.yaml".toList]

/-! Helper lemmas about orderChanged. -/

lemma enumFrom_foldl (l : List Str) : ∀ (i : Nat) (m : Str → List Nat) (s : Str),
    (List.foldl (fun m p => fun s => if s = p.2 then m s ++ [p.1] else m s) m
      (l.enumFrom i)) s = m s ++ posList l s i := by
  induction l with
  | nil => intro i m s; simp [posList]
  | cons x xs ih =>
    intro i m s
    rw [List.enumFrom_cons, List.foldl_cons, ih]
    by_cases hs : s = x
    · subst hs
      rw [posList]
      simp
    · rw [posList]
      have hxs : ¬x = s := fun h => hs h.symm
      simp [hs, hxs]

lemma buildIndexes_eq (old : List Str) (s : Str) :
    buildIndexes old s = posList old s 0 := by
  rw [buildIndexes]
  have henum : old.enum = old.enumFrom 0 := rfl
  rw [henum, enumFrom_foldl]
  simp

lemma idxOf?_none {α : Type} [DecidableEq α] (s : α) :
    ∀ l : List α, idxOf? l s = none ↔ s ∉ l := by
  intro l
  induction l with
  | nil => simp [idxOf?]
  | cons x xs ih =>
    rw [idxOf?]
    by_cases hx : x = s
    · simp [hx]
    · simp only [if_neg hx]
      constructor
      · intro h hm
        rcases List.mem_cons.mp hm with rfl | hm
        · exact hx rfl
        · exact (ih.mp (by
            cases hh : idxOf? xs s with
            | none => rfl
            | some j => rw [hh] at h; simp at h)) hm
      · intro h
        have hs : s ∉ xs := fun hm => h (List.mem_cons_of_mem _ hm)
        rw [ih.mpr hs]
        rfl

lemma posList_not_mem {α : Type} [DecidableEq α] (s : α) :
    ∀ (l : List α) (i : Nat), s ∉ l → posList l s i = [] := by
  intro l
  induction l with
  | nil => intro i _; rw [posList]
  | cons y ys ih =>
    intro i hnot
    rw [posList]
    have hys : ¬y = s := fun h => hnot (h ▸ List.mem_cons_self _ _)
    rw [if_neg hys, List.nil_append]
    exact ih (i + 1) (fun hm => hnot (List.mem_cons_of_mem _ hm))

lemma posList_nodup {α : Type} [DecidableEq α] : ∀ {l : List α}, l.Nodup →
    ∀ (s : α) (i : Nat), posList l s i = (match idxOf? l s with
      | none => []
      | some j => [j + i]) := by
  intro l
  induction l with
  | nil => intro _ s i; simp [posList, idxOf?]
  | cons x xs ih =>
    intro hnd s i
    rw [posList, idxOf?]
    by_cases hx : x = s
    · subst hx
      have hnot : x ∉ xs := (List.nodup_cons.mp hnd).1
      have hpn : posList xs x (i + 1) = [] := posList_not_mem x xs (i + 1) hnot
      rw [if_pos rfl, if_pos rfl, hpn]
      simp
    · rw [if_neg hx, if_neg hx, List.nil_append,
        ih (List.nodup_cons.mp hnd).2 s (i + 1)]
      cases hh : idxOf? xs s with
      | none => rfl
      | some j =>
        show [j + (i + 1)] = [j + 1 + i]
        congr 1
        omega

lemma buildIndexes_nodup {old : List Str} (ho : old.Nodup) (s : Str) :
    buildIndexes old s = (match idxOf? old s with
      | none => []
      | some j => [j]) := by
  rw [buildIndexes_eq, posList_nodup ho s 0]
  cases idxOf? old s <;> simp

lemma ocLoop_eq_loop2 {old : List Str} (ho : old.Nodup) :
    ∀ (new : List Str) (consumed : Str → Nat) (prev : Int),
      new.Nodup → (∀ s ∈ new, consumed s = 0) →
      ocLoop (buildIndexes old) consumed prev new = loop2 prev (posSeq old new) := by
  intro new
  induction new with
  | nil => intro c p _ _; rw [ocLoop, posSeq, List.filterMap_nil, loop2]
  | cons entry rest ih =>
    intro consumed prev hnd hc0
    have hce : consumed entry = 0 := hc0 entry (List.mem_cons_self _ _)
    have hrest0 : ∀ s ∈ rest, consumed s = 0 :=
      fun s hs => hc0 s (List.mem_cons_of_mem _ hs)
    have hndr : rest.Nodup := (List.nodup_cons.mp hnd).2
    cases hidx : idxOf? old entry with
    | none =>
      have hbi : buildIndexes old entry = [] := by
        rw [buildIndexes_nodup ho, hidx]
      have hps : posSeq old (entry :: rest) = posSeq old rest := by
        rw [posSeq, posSeq, List.filterMap_cons, hidx]
      rw [hps, ocLoop, hbi, hce]
      show ocLoop (buildIndexes old) consumed prev rest = _
      exact ih consumed prev hndr hrest0
    | some j =>
      have hbi : buildIndexes old entry = [j] := by
        rw [buildIndexes_nodup ho, hidx]
      have hps : posSeq old (entry :: rest) = j :: posSeq old rest := by
        rw [posSeq, posSeq, List.filterMap_cons, hidx]
      rw [hps, ocLoop, hbi, hce]
      show (if prev > (j : Int) ∧ prev ≠ -1 then true
          else ocLoop (buildIndexes old)
            (fun s => if s = entry then consumed s + 1 else consumed s)
            (j : Int) rest)
        = loop2 prev (j :: posSeq old rest)
      rw [loop2]
      by_cases hcond : prev > (j : Int) ∧ prev ≠ -1
      · rw [if_pos hcond, if_pos hcond]
      · rw [if_neg hcond, if_neg hcond]
        have hc2 : ∀ s ∈ rest, (fun s =>
            if s = entry then consumed s + 1 else consumed s) s = 0 := by
          intro s hs
          have hne : s ≠ entry := by
            intro h
            exact (List.nodup_cons.mp hnd).1 (h ▸ hs)
          simp only [if_neg hne]
          exact hrest0 s hs
        exact ih _ (j : Int) hndr hc2

lemma loop2_nat : ∀ (ps : List Nat) (p : Nat),
    loop2 (p : Int) ps = false ↔ List.Chain' (· ≤ ·) (p :: ps) := by
  intro ps
  induction ps with
  | nil => intro p; simp [loop2]
  | cons q rest ih =>
    intro p
    rw [loop2]
    by_cases hpq : p ≤ q
    · have hcond : ¬((p : Int) > (q : Int) ∧ (p : Int) ≠ -1) := by
        intro ⟨h1, _⟩
        have : (p : Int) ≤ (q : Int) := by exact_mod_cast hpq
        omega
      rw [if_neg hcond, ih q, List.chain'_cons]
      constructor
      · intro h; exact ⟨hpq, h⟩
      · rintro ⟨_, h⟩; exact h
    · have hcond : (p : Int) > (q : Int) ∧ (p : Int) ≠ -1 := by
        constructor
        · exact_mod_cast Nat.lt_of_not_le hpq
        · omega
      rw [if_pos hcond]
      constructor
      · intro h; exact absurd h (by simp)
      · intro h
        rcases List.chain'_cons.mp h with ⟨h1, _⟩
        exact absurd h1 hpq

lemma loop2_neg_start : ∀ (ps : List Nat),
    loop2 (-1) ps = false ↔ List.Chain' (· ≤ ·) ps := by
  intro ps
  cases ps with
  | nil => simp [loop2]
  | cons q rest =>
    rw [loop2]
    have hcond : ¬((-1 : Int) > (q : Int) ∧ (-1 : Int) ≠ -1) := by
      intro ⟨_, h2⟩
      exact h2 rfl
    rw [if_neg hcond]
    exact loop2_nat rest q

lemma orderChanged_iff {old new : List Str} (ho : old.Nodup) (hn : new.Nodup) :
    orderChanged old new = true ↔ ¬ (posSeq old new).Sorted (· ≤ ·) := by
  rw [orderChanged,
    ocLoop_eq_loop2 ho new (fun _ => 0) (-1) hn (fun _ _ => rfl)]
  rw [show ((loop2 (-1) (posSeq old new) = true) ↔
      ¬(loop2 (-1) (posSeq old new) = false)) by
    cases loop2 (-1) (posSeq old new) <;> simp]
  rw [loop2_neg_start, List.chain'_iff_pairwise]
  exact Iff.rfl

lemma orderChanged_nil (new : List Str) : orderChanged [] new = false := by
  rw [orderChanged]
  have hbi : buildIndexes [] = (fun _ => []) := rfl
  rw [hbi]
  have aux : ∀ (m : List Str) (consumed : Str → Nat) (prev : Int),
      ocLoop (fun _ => []) consumed prev m = false := by
    intro m
    induction m with
    | nil => intro c p; rw [ocLoop]
    | cons e rest ih =>
      intro c p
      rw [ocLoop]
      show ocLoop (fun _ => []) c p rest = false
      exact ih c p
  exact aux new _ _

/-- C2: on duplicate-free lists (the program always compares the
deduplicated extracted order with the deduplicated merge output), the
reordered flag is true exactly when the sequence of existing-list indexes
of the shared entries, read in final-list scan order, is not non-decreasing;
and a brand-new manifest, whose existing list is empty, is never
reordered. -/
theorem C2_reordered_iff_inversion (old new : List Str)
    (ho : old.Nodup) (hn : new.Nodup) :
    (orderChanged old new = true ↔ ¬ (posSeq old new).Sorted (· ≤ ·)) ∧
    (∀ m : List Str, orderChanged [] m = false) :=
  ⟨orderChanged_iff ho hn, orderChanged_nil⟩

/-- Witness for C2 at a concrete input. -/
theorem C2_witness :
    (orderChanged ["a".toList, "b".toList] ["b".toList, "a".toList] = true ↔
      ¬ (posSeq ["a".toList, "b".toList] ["b".toList, "a".toList]).Sorted
        (· ≤ ·)) ∧
    (∀ m : List Str, orderChanged [] m = false) :=
  C2_reordered_iff_inversion ["a".toList, "b".toList]
    ["b".toList, "a".toList] (by decide) (by decide)

/-- C3: for a directory reconciliation that is not subtree-skipped, no
manifest write happens and the directory counts as a no-op exactly when the
merged final list equals the existing extracted list (same membership and
order); otherwise the file is rewritten and the directory counts as
updated. -/
theorem C3_noop_iff_merge_equals_existing (opts : Options)
    (order dirEntries fileEntries : List Str) :
    (((applyKustomization opts false order dirEntries fileEntries).1 = false ∧
      (applyKustomization opts false order dirEntries fileEntries).2.noOp = 1 ∧
      (applyKustomization opts false order dirEntries fileEntries).2.updated = 0)
      ↔ mergeResources opts order dirEntries fileEntries = order) ∧
    (((applyKustomization opts false order dirEntries fileEntries).1 = true ∧
      (applyKustomization opts false order dirEntries fileEntries).2.updated = 1 ∧
      (applyKustomization opts false order dirEntries fileEntries).2.noOp = 0)
      ↔ mergeResources opts order dirEntries fileEntries ≠ order) := by
  by_cases h : mergeResources opts order dirEntries fileEntries = order
  · simp [applyKustomization, updateKustomization, h]
  · simp [applyKustomization, updateKustomization, h]

/-! Helper lemmas for the gitignore matcher chain. -/

lemma C7_helper_ignored_iff : ∀ (m : GMatcher) (path : SegPath) (isDir : Bool),
    Ignored m path isDir = true ↔
      ∃ f ∈ frames m, ∃ p ∈ f.2,
        matchesPattern (relStr f.1 path) p isDir = true := by
  intro m
  induction m with
  | nilM =>
    intro path isDir
    rw [Ignored, frames]
    simp
  | node d ps par ih =>
    intro path isDir
    rw [Ignored, frames]
    by_cases hany : ps.any (fun p => matchesPattern (relStr d path) p isDir)
    · rw [if_pos hany]
      rcases List.any_eq_true.mp hany with ⟨p, hp, hm⟩
      simp only [true_iff]
      exact ⟨(d, ps), List.mem_cons_self _ _, p, hp, hm⟩
    · rw [if_neg hany]
      rw [ih path isDir]
      constructor
      · rintro ⟨f, hf, p, hp, hm⟩
        exact ⟨f, List.mem_cons_of_mem _ hf, p, hp, hm⟩
      · rintro ⟨f, hf, p, hp, hm⟩
        rcases List.mem_cons.mp hf with rfl | hf
        · exact absurd (List.any_eq_true.mpr ⟨p, hp, hm⟩) hany
        · exact ⟨f, hf, p, hp, hm⟩

/-- C7: for a matcher chain over ancestor directories of the queried path,
Ignored returns true exactly when some frame of the chain (closest first)
holds a pattern matching the path relative to that frame directory; a match
at any level excludes the path and no level can un-ignore another. -/
theorem C7_chain_ignored_iff (m : GMatcher) (path : SegPath) (isDir : Bool)
    (hanc : ∀ f ∈ frames m, f.1 <+: path) :
    Ignored m path isDir = true ↔
      ∃ f ∈ frames m, ∃ p ∈ f.2,
        matchesPattern (relStr f.1 path) p isDir = true :=
  C7_helper_ignored_iff m path isDir

/-- Witness for C7 at a concrete two-frame chain. -/
theorem C7_witness :
    Ignored (GMatcher.node ["a".toList] ["b".toList]
        (GMatcher.node [] [] GMatcher.nilM))
      ["a".toList, "b".toList] false = true ↔
      ∃ f ∈ frames (GMatcher.node ["a".toList] ["b".toList]
        (GMatcher.node [] [] GMatcher.nilM)), ∃ p ∈ f.2,
        matchesPattern (relStr f.1 ["a".toList, "b".toList]) p false = true :=
  C7_chain_ignored_iff
    (GMatcher.node ["a".toList] ["b".toList]
      (GMatcher.node [] [] GMatcher.nilM))
    ["a".toList, "b".toList] false
    (by
      intro f hf
      rw [frames, frames, frames] at hf
      rcases List.mem_cons.mp hf with rfl | hf
      · exact ⟨["b".toList], rfl⟩
      rcases List.mem_cons.mp hf with rfl | hf
      · exact ⟨["a".toList, "b".toList], rfl⟩
      · simp at hf)

/-! Helper lemmas about collectExistingResources. -/

lemma collectLoop_nodes : ∀ (content : List YNode)
    (nodes : Str → Option YNode) (order : List Str) (v : Str),
    (collectLoop nodes order content).1 v
      = (match lastScalarNode content v with
        | some m => some m
        | none => nodes v) := by
  intro content
  induction content with
  | nil => intro nodes order v; rw [collectLoop, lastScalarNode]
  | cons n rest ih =>
    intro nodes order v
    rw [collectLoop, lastScalarNode]
    by_cases hk : n.kind = YKind.scalar
    · rw [if_neg (by simp [hk])]
      rw [ih]
      cases hlast : lastScalarNode rest v with
      | some m => rfl
      | none =>
        by_cases hv : n.value = v
        · have hif : (if n.kind = YKind.scalar ∧ n.value = v then some n
              else none) = some n := if_pos ⟨hk, hv⟩
          rw [hif]
          show (if v = n.value then some n else nodes v) = some n
          rw [if_pos hv.symm]
        · have hif : (if n.kind = YKind.scalar ∧ n.value = v then some n
              else none) = (none : Option YNode) := by
            rw [if_neg]
            intro hcontra
            exact hv hcontra.2
          rw [hif]
          show (if v = n.value then some n else nodes v) = nodes v
          rw [if_neg (fun h => hv h.symm)]
    · rw [if_pos (by simp [hk])]
      rw [ih]
      cases hlast : lastScalarNode rest v with
      | some m => rfl
      | none =>
        have hif : (if n.kind = YKind.scalar ∧ n.value = v then some n
            else none) = (none : Option YNode) := by
          rw [if_neg]
          intro hcontra
          exact hk hcontra.1
        rw [hif]

lemma collectLoop_order : ∀ (content : List YNode)
    (nodes : Str → Option YNode) (order : List Str),
    (collectLoop nodes order content).2
      = order ++ dp (((content.filter
          (fun n => n.kind = YKind.scalar)).map (fun n => n.value)).filter
            (fun v => (nodes v).isNone)) := by
  intro content
  induction content with
  | nil => intro nodes order; rw [collectLoop]; simp [dp_nil]
  | cons n rest ih =>
    intro nodes order
    rw [collectLoop]
    by_cases hk : n.kind = YKind.scalar
    · rw [if_neg (by simp [hk])]
      have hfc : List.filter (fun n => decide (n.kind = YKind.scalar)) (n :: rest)
          = n :: rest.filter (fun n => decide (n.kind = YKind.scalar)) := by
        simp [List.filter_cons, hk]
      rw [hfc, List.map_cons]
      by_cases hsome : (nodes n.value).isSome
      · have hnn : (nodes n.value).isNone = false := by
          obtain ⟨w, hw⟩ := Option.isSome_iff_exists.mp hsome
          rw [hw]
          rfl
        rw [if_pos hsome, ih]
        have hfv : List.filter (fun v => (nodes v).isNone)
            (n.value :: (rest.filter
              (fun n => decide (n.kind = YKind.scalar))).map (fun n => n.value))
            = ((rest.filter (fun n => decide (n.kind = YKind.scalar))).map
                (fun n => n.value)).filter (fun v => (nodes v).isNone) := by
          rw [List.filter_cons, if_neg (by simp [hnn])]
        rw [hfv]
        congr 2
        apply List.filter_congr
        intro v _
        by_cases hv : v = n.value
        · subst hv
          obtain ⟨w, hw⟩ := Option.isSome_iff_exists.mp hsome
          simp [hw]
        · simp [hv]
      · have hnn : (nodes n.value).isNone = true := by
          cases hn : nodes n.value
          · rfl
          · rw [hn] at hsome; simp at hsome
        rw [if_neg hsome, ih]
        have hfv : List.filter (fun v => (nodes v).isNone)
            (n.value :: (rest.filter
              (fun n => decide (n.kind = YKind.scalar))).map (fun n => n.value))
            = n.value :: ((rest.filter
                (fun n => decide (n.kind = YKind.scalar))).map
                  (fun n => n.value)).filter (fun v => (nodes v).isNone) := by
          rw [List.filter_cons, if_pos (by simp [hnn])]
        rw [hfv, dp_cons, List.append_assoc, List.singleton_append]
        congr 2
        congr 1
        rw [List.filter_filter]
        apply List.filter_congr
        intro v _
        by_cases hv : v = n.value
        · subst hv
          simp
        · simp [hv]
    · rw [if_pos (by simp [hk]), ih]
      have hfc : List.filter (fun n => decide (n.kind = YKind.scalar)) (n :: rest)
          = rest.filter (fun n => decide (n.kind = YKind.scalar)) := by
        simp [List.filter_cons, hk]
      rw [hfc]

/-- C8 counterexample: two scalar nodes with the same value but different
attached formatting; the extracted value-to-node map holds the node of the
last occurrence, not the first, refuting the claim as stated. -/
theorem C8_counterexample :
    (collectExistingResources
      [⟨YKind.scalar, "a".toList, "c1".toList⟩,
       ⟨YKind.scalar, "a".toList, "c2".toList⟩]).1 "a".toList
      = some ⟨YKind.scalar, "a".toList, "c2".toList⟩ ∧
    (⟨YKind.scalar, "a".toList, "c2".toList⟩ : YNode)
      ≠ ⟨YKind.scalar, "a".toList, "c1".toList⟩ := by
  constructor
  · rfl
  · decide

/-- C8 amended: the extraction maps each value to exactly one node, namely
the node of its last scalar occurrence (duplicates collapse to the last
occurrence, not the first), and the extracted order lists each distinct
scalar value once, at its first-occurrence position. -/
theorem C8_last_occurrence_and_first_order (content : List YNode) :
    (∀ v, (collectExistingResources content).1 v = lastScalarNode content v) ∧
    (collectExistingResources content).2
      = DedupPreserve ((content.filter
          (fun n => n.kind = YKind.scalar)).map (fun n => n.value)) := by
  constructor
  · intro v
    rw [collectExistingResources, collectLoop_nodes]
    cases lastScalarNode content v <;> rfl
  · rw [collectExistingResources, collectLoop_order, List.nil_append,
      DedupPreserve_eq_dp]
    congr 1
    apply List.filter_eq_self.mpr
    intro a _
    rfl

/-- C9 counterexample: a mapping that already has apiVersion but no kind is
left untouched, so the written document does not contain the kind field,
refuting the claim that both identifying fields are always present. -/
theorem C9_counterexample :
    ensureHeader [⟨YKind.scalar, "apiVersion".toList, []⟩,
        ⟨YKind.scalar, "v1".toList, []⟩]
      = [⟨YKind.scalar, "apiVersion".toList, []⟩,
         ⟨YKind.scalar, "v1".toList, []⟩] ∧
    ∀ n ∈ ensureHeader [⟨YKind.scalar, "apiVersion".toList, []⟩,
        ⟨YKind.scalar, "v1".toList, []⟩], n.value ≠ "kind".toList := by
  constructor
  · rfl
  · decide

/-- C9 amended: every written manifest starts with the explicit
document-start marker, and when neither identifying key is present in the
top-level mapping the header is synthesized and both apiVersion and kind
appear; when either key is already present the mapping is left exactly as
it was (so a mapping carrying only one of the two keys keeps missing the
other, as the counterexample shows). -/
theorem C9_marker_and_header (encoded : Str) (c : List YNode)
    (h : hasHeaderKey c = false) :
    "---\n".toList <+: writtenFile encoded ∧
    ensureHeader c = headerNodes ++ c ∧
    "apiVersion".toList ∈ (ensureHeader c).map YNode.value ∧
    "kind".toList ∈ (ensureHeader c).map YNode.value := by
  have hh : ensureHeader c = headerNodes ++ c := by
    rw [ensureHeader, h]
    simp
  refine ⟨⟨encoded, rfl⟩, hh, ?_, ?_⟩
  · rw [hh, List.map_append]
    apply List.mem_append_left
    rw [headerNodes]
    decide
  · rw [hh, List.map_append]
    apply List.mem_append_left
    rw [headerNodes]
    decide

/-- Witness for C9 at a concrete input. -/
theorem C9_witness :
    "---\n".toList <+: writtenFile [] ∧
    ensureHeader [⟨YKind.scalar, "x".toList, []⟩]
      = headerNodes ++ [⟨YKind.scalar, "x".toList, []⟩] ∧
    "apiVersion".toList ∈ (ensureHeader
      [⟨YKind.scalar, "x".toList, []⟩]).map YNode.value ∧
    "kind".toList ∈ (ensureHeader
      [⟨YKind.scalar, "x".toList, []⟩]).map YNode.value :=
  C9_marker_and_header [] [⟨YKind.scalar, "x".toList, []⟩] (by decide)

/-! Helper lemmas about the walk. -/

lemma addStats_zero (s : ResourceStats) : addStats s ⟨0, 0, 0, 0, 0⟩ = s := by
  cases s
  simp [addStats]

lemma walk_step_eq (opts : Options) (rules : List SkipRule) (cancelled : Bool)
    (matcher : GMatcher) (dirPath : SegPath) (entries : List FSEntry) :
    (fun (acc : WalkOut) (c : ChildDir) =>
      if c.skipWalk = true then acc
      else
        match h : findSubdir entries c.name with
        | none => acc
        | some sub =>
          let r := walkDir opts rules cancelled matcher (dirPath ++ [c.name])
            sub c.skipUpdate
          (⟨addStats acc.stats r.stats, acc.written ++ r.written,
            acc.visitedF ++ r.visitedF⟩ : WalkOut))
    = fun acc c =>
      (⟨addStats acc.stats
          (childOutW opts rules cancelled matcher dirPath entries c).stats,
        acc.written ++ (childOutW opts rules cancelled matcher dirPath entries c).written,
        acc.visitedF ++ (childOutW opts rules cancelled matcher dirPath entries c).visitedF⟩
        : WalkOut) := by
  funext acc c
  rw [childOutW]
  by_cases hsw : c.skipWalk = true
  · rw [if_pos hsw, if_pos hsw]
    cases acc with
    | mk st w v => simp [addStats_zero]
  · rw [if_neg hsw, if_neg hsw]
    cases hfs : findSubdir entries c.name with
    | none =>
      cases acc with
      | mk st w v => simp [addStats_zero]
    | some sub => rfl

lemma foldl_combine_written (g : ChildDir → WalkOut) : ∀ (cs : List ChildDir)
    (acc : WalkOut),
    (cs.foldl (fun acc c => (⟨addStats acc.stats (g c).stats,
        acc.written ++ (g c).written, acc.visitedF ++ (g c).visitedF⟩
          : WalkOut)) acc).written
      = acc.written ++ (cs.map (fun c => (g c).written)).flatten := by
  intro cs
  induction cs with
  | nil => intro acc; simp
  | cons c rest ih =>
    intro acc
    rw [List.foldl_cons, ih]
    simp [List.append_assoc]

lemma foldl_combine_visitedF (g : ChildDir → WalkOut) : ∀ (cs : List ChildDir)
    (acc : WalkOut),
    (cs.foldl (fun acc c => (⟨addStats acc.stats (g c).stats,
        acc.written ++ (g c).written, acc.visitedF ++ (g c).visitedF⟩
          : WalkOut)) acc).visitedF
      = acc.visitedF ++ (cs.map (fun c => (g c).visitedF)).flatten := by
  intro cs
  induction cs with
  | nil => intro acc; simp
  | cons c rest ih =>
    intro acc
    rw [List.foldl_cons, ih]
    simp [List.append_assoc]

lemma walkDir_visitedF (opts : Options) (rules : List SkipRule)
    (cancelled : Bool) (parent : GMatcher) (dirPath : SegPath) (d : FSDir)
    (su : Bool) :
    (walkDir opts rules cancelled parent dirPath d su).visitedF
      = (dirPath, su) ::
        ((scanEntries opts rules (loadMatcher opts parent dirPath d.ignorePats)
            dirPath d.entries).2.2.map
          (fun c => (childOutW opts rules cancelled
            (loadMatcher opts parent dirPath d.ignorePats) dirPath d.entries
              c).visitedF)).flatten := by
  rw [walkDir, walk_step_eq, foldl_combine_visitedF]
  rfl

lemma walkDir_written (opts : Options) (rules : List SkipRule)
    (cancelled : Bool) (parent : GMatcher) (dirPath : SegPath) (d : FSDir)
    (su : Bool) :
    (walkDir opts rules cancelled parent dirPath d su).written
      = (if (applyKustomization opts su (d.existing.getD [])
            (scanEntries opts rules (loadMatcher opts parent dirPath d.ignorePats)
              dirPath d.entries).1
            (scanEntries opts rules (loadMatcher opts parent dirPath d.ignorePats)
              dirPath d.entries).2.1).1 = true then [dirPath] else [])
        ++ ((scanEntries opts rules (loadMatcher opts parent dirPath d.ignorePats)
            dirPath d.entries).2.2.map
          (fun c => (childOutW opts rules cancelled
            (loadMatcher opts parent dirPath d.ignorePats) dirPath d.entries
              c).written)).flatten := by
  rw [walkDir, walk_step_eq, foldl_combine_written]

/-! Helper lemmas about paths and skip-rule compilation. -/

lemma joinSegs_append_singleton (p : SegPath) (n : Str) (hp : p ≠ []) :
    joinSegs (p ++ [n]) = joinSegs p ++ '/' :: n := by
  induction p with
  | nil => exact absurd rfl hp
  | cons s rest ih =>
    cases rest with
    | nil => rfl
    | cons t rest2 =>
      have hne : (t :: rest2) ≠ [] := by simp
      show s ++ '/' :: joinSegs ((t :: rest2) ++ [n])
        = (s ++ '/' :: joinSegs (t :: rest2)) ++ '/' :: n
      rw [ih hne]
      simp

lemma joinSegs_len_lt (p : SegPath) (n : Str) (hp : p ≠ []) :
    (joinSegs p).length < (joinSegs (p ++ [n])).length := by
  rw [joinSegs_append_singleton p n hp]
  simp

lemma joinSegs_len_lt_append (q : SegPath) : ∀ (r : SegPath), q ≠ [] → r ≠ [] →
    (joinSegs q).length < (joinSegs (q ++ r)).length := by
  intro r
  induction r generalizing q with
  | nil => intro _ hr; exact absurd rfl hr
  | cons x r2 ih =>
    intro hq _
    cases hr2 : r2 with
    | nil => exact joinSegs_len_lt q x hq
    | cons y r3 =>
      have h1 := joinSegs_len_lt q x hq
      have h2 := ih (q ++ [x]) (by simp) (by simp [hr2])
      rw [hr2] at *
      have : q ++ x :: y :: r3 = (q ++ [x]) ++ (y :: r3) := by simp
      rw [this]
      omega

lemma joinSegs_take_ne (p : SegPath) (k : Nat) (hp : p ≠ []) (hk : 0 < k)
    (hlt : k < p.length) : joinSegs (p.take k) ≠ joinSegs p := by
  intro h
  have htd : p.take k ++ p.drop k = p := List.take_append_drop k p
  have hne1 : p.take k ≠ [] := by
    intro hcon
    have := List.length_take k p
    rw [hcon] at this
    simp at this
    omega
  have hne2 : p.drop k ≠ [] := by
    intro hcon
    have := List.length_drop k p
    rw [hcon] at this
    simp at this
    omega
  have := joinSegs_len_lt_append (p.take k) (p.drop k) hne1 hne2
  rw [htd, h] at this
  omega

lemma joinSegs_ne_nil (p : SegPath) (hp : p ≠ []) (hs : ∀ s ∈ p, s ≠ []) :
    joinSegs p ≠ [] := by
  cases p with
  | nil => exact absurd rfl hp
  | cons s rest =>
    cases rest with
    | nil => exact hs s (by simp)
    | cons t rest2 =>
      show s ++ '/' :: joinSegs (t :: rest2) ≠ []
      simp

lemma trimRightSlashes_append_ne (x : Str) (c : Char) (hc : c ≠ '/') :
    trimRightSlashes (x ++ [c]) = x ++ [c] := by
  rw [trimRightSlashes, List.reverse_append]
  show ((c :: x.reverse).dropWhile (fun c => decide (c = '/'))).reverse = _
  rw [List.dropWhile_cons]
  simp [hc]

lemma hasSuffixStr_append (v suf : Str) : hasSuffixStr (v ++ suf) suf = true := by
  rw [hasSuffixStr, List.isSuffixOf_iff_suffix]
  exact List.suffix_append v suf

lemma trimSuffixStr_append (v suf : Str) : trimSuffixStr (v ++ suf) suf = v := by
  rw [trimSuffixStr, if_pos (hasSuffixStr_append v suf)]
  have hlen : (v ++ suf).length - suf.length = v.length := by
    rw [List.length_append]
    omega
  rw [hlen, List.take_left]

lemma not_suffix_starstar (v : Str) :
    hasSuffixStr (v ++ "/*".toList) "/**".toList = false := by
  by_contra h
  rw [Bool.not_eq_false, hasSuffixStr, List.isSuffixOf_iff_suffix] at h
  rcases h with ⟨t, ht⟩
  have hrev := congrArg List.reverse ht
  rw [List.reverse_append, List.reverse_append] at hrev
  simp at hrev

lemma parseSkipRules_subtree (v : Str) :
    parseSkipRules [v ++ "/**".toList]
      = [⟨v ++ "/**".toList, SkipMode.subtree, v⟩] := by
  rw [parseSkipRules, List.map_cons, List.map_nil]
  have hcanon : trimRightSlashes (v ++ "/**".toList) = v ++ "/**".toList := by
    have : v ++ "/**".toList = (v ++ ['/', '*']) ++ ['*'] := by simp
    rw [this, trimRightSlashes_append_ne _ _ (by decide)]
  simp only [hcanon, hasSuffixStr_append, if_pos]
  rw [trimSuffixStr_append]

lemma parseSkipRules_children (v : Str) :
    parseSkipRules [v ++ "/*".toList]
      = [⟨v ++ "/*".toList, SkipMode.children, v⟩] := by
  rw [parseSkipRules, List.map_cons, List.map_nil]
  have hcanon : trimRightSlashes (v ++ "/*".toList) = v ++ "/*".toList := by
    have : v ++ "/*".toList = (v ++ ['/']) ++ ['*'] := by simp
    rw [this, trimRightSlashes_append_ne _ _ (by decide)]
  simp only [hcanon, not_suffix_starstar, hasSuffixStr_append]
  simp only [Bool.false_eq_true, if_false, if_pos]
  rw [trimSuffixStr_append]

lemma matchSkip_nil (rel : Str) (hd : Bool) :
    matchSkip rel hd [] = (false, SkipMode.exact, []) := by
  rw [matchSkip]

lemma matchSkip_single_subtree (v raw rel : Str) (hd : Bool) :
    matchSkip rel hd [⟨raw, SkipMode.subtree, v⟩]
      = if rel = v then (true, SkipMode.subtree, raw)
        else (false, SkipMode.exact, []) := by
  by_cases h : rel = v
  · simp [matchSkip, h]
  · simp [matchSkip, h]

lemma matchSkip_single_children_full (v raw rel : Str) (hd : Bool) :
    matchSkip rel hd [⟨raw, SkipMode.children, v⟩]
      = if hd = true ∧ rel = v then (true, SkipMode.children, raw)
        else if matchesChild rel v = true then (true, SkipMode.children, raw)
        else (false, SkipMode.exact, []) := by
  by_cases h1 : hd = true ∧ rel = v
  · simp [matchSkip, h1]
  · by_cases h2 : matchesChild rel v = true
    · simp [matchSkip, h1, h2]
    · simp [matchSkip, h1, h2]

lemma matchSkip_single_children (v raw rel : Str) (hd : Bool) :
    (matchSkip rel hd [⟨raw, SkipMode.children, v⟩]).1 = true ↔
      ((hd = true ∧ rel = v) ∨ matchesChild rel v = true) := by
  rw [matchSkip_single_children_full]
  by_cases h1 : hd = true ∧ rel = v
  · simp [h1]
  · by_cases h2 : matchesChild rel v = true
    · simp [h1, h2]
    · simp [h1, h2]

lemma matchesChild_iff (v rel : Str) (hv : v ≠ []) :
    matchesChild rel v = true ↔
      ∃ c : Str, rel = v ++ '/' :: c ∧ c ≠ [] ∧ ('/' : Char) ∉ c := by
  rw [matchesChild, if_neg hv]
  by_cases hpre : hasPrefixStr rel (v ++ ['/']) = true
  · rw [hasPrefixStr, List.isPrefixOf_iff_prefix] at hpre
    rcases hpre with ⟨t, ht⟩
    have hpre2 : hasPrefixStr rel (v ++ ['/']) = true := by
      rw [hasPrefixStr, List.isPrefixOf_iff_prefix]
      exact ⟨t, ht⟩
    rw [if_neg (by simp [hpre2])]
    have hdrop : rel.drop (v.length + 1) = t := by
      rw [← ht]
      have : v.length + 1 = (v ++ ['/']).length := by simp
      rw [this, List.drop_left]
    rw [hdrop]
    have hbool : (decide (t ≠ []) && !t.contains '/') = true
        ↔ (t ≠ [] ∧ ('/' : Char) ∉ t) := by
      simp
    rw [hbool]
    constructor
    · intro hc
      refine ⟨t, ?_, hc.1, hc.2⟩
      rw [← ht]
      simp
    · rintro ⟨c, hrel, hc1, hc2⟩
      have htc : t = c := by
        have hcat : (v ++ ['/']) ++ t = (v ++ ['/']) ++ c := by
          rw [ht, hrel]
          simp
        exact List.append_cancel_left hcat
      subst htc
      exact ⟨hc1, hc2⟩
  · rw [if_pos (by simp [hpre])]
    constructor
    · intro h
      exact absurd h (by simp)
    · rintro ⟨c, hrel, _, _⟩
      exfalso
      apply hpre
      rw [hasPrefixStr, List.isPrefixOf_iff_prefix]
      exact ⟨c, by rw [hrel]; simp⟩

lemma matchesChild_short (v rel : Str) (hv : v ≠ [])
    (hlen : rel.length ≤ v.length) : matchesChild rel v = false := by
  by_contra h
  rw [Bool.not_eq_false, matchesChild_iff v rel hv] at h
  rcases h with ⟨c, hrel, _, _⟩
  have := congrArg List.length hrel
  simp at this
  omega

/-! Helper lemmas about directory entry resolution and scanning. -/

lemma findSubdir_some_mem : ∀ (entries : List FSEntry) (n : Str) (sub : FSDir),
    findSubdir entries n = some sub → FSEntry.subdir n sub ∈ entries := by
  intro entries
  induction entries with
  | nil => intro n sub h; simp [findSubdir] at h
  | cons e rest ih =>
    intro n sub h
    cases e with
    | file m =>
      rw [findSubdir] at h
      exact List.mem_cons_of_mem _ (ih n sub h)
    | subdir m s2 =>
      rw [findSubdir] at h
      by_cases hm : m = n
      · rw [if_pos hm] at h
        injection h with h2
        subst hm
        subst h2
        exact List.mem_cons_self _ _
      · rw [if_neg hm] at h
        exact List.mem_cons_of_mem _ (ih n sub h)

lemma findSubdir_of_mem_nodup : ∀ (entries : List FSEntry) (n : Str) (sub : FSDir),
    (entries.map FSEntry.name).Nodup → FSEntry.subdir n sub ∈ entries →
    findSubdir entries n = some sub := by
  intro entries
  induction entries with
  | nil => intro n sub _ h; simp at h
  | cons e rest ih =>
    intro n sub hnd hmem
    rcases List.mem_cons.mp hmem with heq | hmem2
    · subst heq
      rw [findSubdir, if_pos rfl]
    · cases e with
      | file m =>
        rw [findSubdir]
        exact ih n sub (List.nodup_cons.mp hnd).2 hmem2
      | subdir m s2 =>
        rw [findSubdir]
        have hnd2 := List.nodup_cons.mp hnd
        by_cases hm : m = n
        · exfalso
          have hmm : n ∈ List.map FSEntry.name rest :=
            List.mem_map_of_mem FSEntry.name hmem2
          apply hnd2.1
          rw [hm]
          exact hmm
        · rw [if_neg hm]
          exact ih n sub hnd2.2 hmem2

lemma scanEntries_cons (opts : Options) (rules : List SkipRule)
    (matcher : GMatcher) (dirPath : SegPath) (e : FSEntry)
    (rest : List FSEntry) :
    scanEntries opts rules matcher dirPath (e :: rest)
      = ((scanOne opts rules matcher dirPath e).1
            ++ (scanEntries opts rules matcher dirPath rest).1,
         (scanOne opts rules matcher dirPath e).2.1
            ++ (scanEntries opts rules matcher dirPath rest).2.1,
         (scanOne opts rules matcher dirPath e).2.2
            ++ (scanEntries opts rules matcher dirPath rest).2.2) := by
  rw [scanEntries]

lemma scanEntries_dir_mem (opts : Options) (rules : List SkipRule)
    (matcher : GMatcher) (dirPath : SegPath) {x : Str} :
    ∀ (entries : List FSEntry) (e : FSEntry), e ∈ entries →
    x ∈ (scanOne opts rules matcher dirPath e).1 →
    x ∈ (scanEntries opts rules matcher dirPath entries).1 := by
  intro entries
  induction entries with
  | nil => intro e h; simp at h
  | cons e2 rest ih =>
    intro e hmem hx
    rw [scanEntries_cons]
    rcases List.mem_cons.mp hmem with rfl | hmem2
    · exact List.mem_append_left _ hx
    · exact List.mem_append_right _ (ih e hmem2 hx)

lemma scanEntries_child_mem (opts : Options) (rules : List SkipRule)
    (matcher : GMatcher) (dirPath : SegPath) {c : ChildDir} :
    ∀ (entries : List FSEntry) (e : FSEntry), e ∈ entries →
    c ∈ (scanOne opts rules matcher dirPath e).2.2 →
    c ∈ (scanEntries opts rules matcher dirPath entries).2.2 := by
  intro entries
  induction entries with
  | nil => intro e h; simp at h
  | cons e2 rest ih =>
    intro e hmem hx
    rw [scanEntries_cons]
    rcases List.mem_cons.mp hmem with rfl | hmem2
    · exact List.mem_append_left _ hx
    · exact List.mem_append_right _ (ih e hmem2 hx)

lemma scanEntries_child_mem_inv (opts : Options) (rules : List SkipRule)
    (matcher : GMatcher) (dirPath : SegPath) {c : ChildDir} :
    ∀ (entries : List FSEntry),
    c ∈ (scanEntries opts rules matcher dirPath entries).2.2 →
    ∃ e ∈ entries, c ∈ (scanOne opts rules matcher dirPath e).2.2 := by
  intro entries
  induction entries with
  | nil => intro h; rw [scanEntries] at h; simp at h
  | cons e2 rest ih =>
    intro hx
    rw [scanEntries_cons] at hx
    rcases List.mem_append.mp hx with hx | hx
    · exact ⟨e2, List.mem_cons_self _ _, hx⟩
    · rcases ih hx with ⟨e, he, hce⟩
      exact ⟨e, List.mem_cons_of_mem _ he, hce⟩

lemma scanOne_child_shape (opts : Options) (rules : List SkipRule)
    (matcher : GMatcher) (dirPath : SegPath) (e : FSEntry) :
    (scanOne opts rules matcher dirPath e).2.2 = [] ∨
      ∃ b1 b2, (scanOne opts rules matcher dirPath e).2.2
        = [⟨e.name, b1, b2⟩] := by
  rw [scanOne]
  by_cases h1 : isKustomization e.name = true
  · rw [if_pos h1]; left; rfl
  · rw [if_neg h1]
    by_cases h2 : (!opts.includeDot && hasPrefixStr e.name ".".toList) = true
    · rw [if_pos h2]; left; rfl
    · rw [if_neg h2]
      by_cases h3 : Ignored matcher (dirPath ++ [e.name]) e.isDir = true
      · rw [if_pos h3]; left; rfl
      · rw [if_neg h3]
        by_cases h4 : (matchSkip (joinSegs (dirPath ++ [e.name]))
            e.isDir rules).1 = true
        · rw [if_pos h4]
          by_cases h5 : (!e.isDir) = true
          · rw [if_pos h5]; left; rfl
          · rw [if_neg h5]
            cases hmode : (matchSkip (joinSegs (dirPath ++ [e.name]))
                e.isDir rules).2.1 with
            | exact => left; rfl
            | glob => left; rfl
            | children =>
              right
              exact ⟨false, true, rfl⟩
            | subtree =>
              right
              exact ⟨true, false, rfl⟩
        · rw [if_neg h4]
          by_cases h6 : e.isDir = true
          · rw [if_pos h6]
            right
            exact ⟨false, false, rfl⟩
          · rw [if_neg h6]
            by_cases h7 : isYAML e.name = true
            · rw [if_pos h7]; left; rfl
            · rw [if_neg h7]; left; rfl

lemma scanOne_child_name (opts : Options) (rules : List SkipRule)
    (matcher : GMatcher) (dirPath : SegPath) (e : FSEntry) (c : ChildDir)
    (hc : c ∈ (scanOne opts rules matcher dirPath e).2.2) :
    c.name = e.name := by
  rcases scanOne_child_shape opts rules matcher dirPath e with h | ⟨b1, b2, h⟩
  · rw [h] at hc; simp at hc
  · rw [h] at hc
    rcases List.mem_singleton.mp hc with rfl
    rfl

lemma scan_child_names_sublist (opts : Options) (rules : List SkipRule)
    (matcher : GMatcher) (dirPath : SegPath) : ∀ (entries : List FSEntry),
    ((scanEntries opts rules matcher dirPath entries).2.2.map
      ChildDir.name).Sublist (entries.map FSEntry.name) := by
  intro entries
  induction entries with
  | nil => rw [scanEntries]; simp
  | cons e rest ih =>
    rw [scanEntries_cons]
    simp only [List.map_cons, List.map_append]
    rcases scanOne_child_shape opts rules matcher dirPath e with h | ⟨b1, b2, h⟩
    · rw [h]
      simp only [List.map_nil, List.nil_append]
      exact ih.cons _
    · rw [h]
      simp only [List.map_cons, List.map_nil]
      show (e.name :: _).Sublist (e.name :: _)
      exact ih.cons₂ _

lemma scanOne_subdir_eval (opts : Options) (rules : List SkipRule)
    (dirPath : SegPath) (n : Str) (sub : FSDir)
    (hIncl : opts.includeDot = true) (hk : isKustomization n = false) :
    scanOne opts rules GMatcher.nilM dirPath (FSEntry.subdir n sub)
      = if (matchSkip (joinSegs (dirPath ++ [n])) true rules).1 then
          ((handleSkipDir n
              (matchSkip (joinSegs (dirPath ++ [n])) true rules).2.1 [] []).1,
            [],
            (handleSkipDir n
              (matchSkip (joinSegs (dirPath ++ [n])) true rules).2.1 [] []).2)
        else ([n], [], [⟨n, false, false⟩]) := by
  rw [scanOne]
  have hname : FSEntry.name (FSEntry.subdir n sub) = n := rfl
  have hdir : FSEntry.isDir (FSEntry.subdir n sub) = true := rfl
  rw [hname, hdir]
  rw [if_neg (by rw [hk]; simp)]
  rw [if_neg (by rw [hIncl]; simp)]
  rw [if_neg (by rw [Ignored]; simp)]
  by_cases hm : (matchSkip (joinSegs (dirPath ++ [n])) true rules).1 = true
  · rw [if_pos hm, if_pos hm]
    rw [if_neg (by simp)]
  · rw [if_neg hm, if_neg hm, if_pos rfl]

lemma scanOne_subdir_noskip (opts : Options) (rules : List SkipRule)
    (dirPath : SegPath) (n : Str) (sub : FSDir)
    (hIncl : opts.includeDot = true) (hk : isKustomization n = false)
    (hm : (matchSkip (joinSegs (dirPath ++ [n])) true rules).1 = false) :
    scanOne opts rules GMatcher.nilM dirPath (FSEntry.subdir n sub)
      = ([n], [], [⟨n, false, false⟩]) := by
  rw [scanOne_subdir_eval opts rules dirPath n sub hIncl hk, hm]
  simp

lemma scanOne_subdir_skip (opts : Options) (rules : List SkipRule)
    (dirPath : SegPath) (n : Str) (sub : FSDir) (md : SkipMode) (pat : Str)
    (hIncl : opts.includeDot = true) (hk : isKustomization n = false)
    (hm : matchSkip (joinSegs (dirPath ++ [n])) true rules = (true, md, pat)) :
    scanOne opts rules GMatcher.nilM dirPath (FSEntry.subdir n sub)
      = ((handleSkipDir n md [] []).1, [], (handleSkipDir n md [] []).2) := by
  rw [scanOne_subdir_eval opts rules dirPath n sub hIncl hk, hm]
  simp

lemma loadMatcher_nil (opts : Options) (parent : GMatcher) (dirPath : SegPath)
    (pats : List Str) (hGI : opts.useGitIgnore = false) :
    loadMatcher opts parent dirPath pats = GMatcher.nilM := by
  rw [loadMatcher, hGI]
  simp

lemma walk_visited_self (opts : Options) (rules : List SkipRule)
    (cancelled : Bool) (parent : GMatcher) (dirPath : SegPath) (d : FSDir)
    (su : Bool) :
    (dirPath, su) ∈ (walkDir opts rules cancelled parent dirPath d su).visitedF := by
  rw [walkDir_visitedF]
  exact List.mem_cons_self _ _

lemma walk_visited_cases (opts : Options) (rules : List SkipRule)
    (cancelled : Bool) (parent : GMatcher) (dirPath : SegPath) (d : FSDir)
    (su : Bool) {x : SegPath} {bb : Bool}
    (hx : (x, bb) ∈ (walkDir opts rules cancelled parent dirPath d su).visitedF) :
    (x = dirPath ∧ bb = su) ∨
      ∃ c sub, c ∈ (scanEntries opts rules
          (loadMatcher opts parent dirPath d.ignorePats) dirPath d.entries).2.2 ∧
        c.skipWalk = false ∧ findSubdir d.entries c.name = some sub ∧
        (x, bb) ∈ (walkDir opts rules cancelled
          (loadMatcher opts parent dirPath d.ignorePats)
          (dirPath ++ [c.name]) sub c.skipUpdate).visitedF := by
  rw [walkDir_visitedF] at hx
  rcases List.mem_cons.mp hx with heq | hx2
  · left
    rw [Prod.mk.injEq] at heq
    exact heq
  · right
    rcases List.mem_flatten.mp hx2 with ⟨block, hblock, hxin⟩
    rcases List.mem_map.mp hblock with ⟨c, hc, rfl⟩
    rw [childOutW] at hxin
    by_cases hsw : c.skipWalk = true
    · rw [if_pos hsw] at hxin
      simp at hxin
    · rw [if_neg hsw] at hxin
      cases hfs : findSubdir d.entries c.name with
      | none => rw [hfs] at hxin; simp at hxin
      | some sub =>
        rw [hfs] at hxin
        exact ⟨c, sub, hc, by simpa using hsw, hfs, hxin⟩

lemma walk_child_sub (opts : Options) (rules : List SkipRule)
    (cancelled : Bool) (parent : GMatcher) (dirPath : SegPath) (d : FSDir)
    (su : Bool) {c : ChildDir} {sub : FSDir}
    (hc : c ∈ (scanEntries opts rules
        (loadMatcher opts parent dirPath d.ignorePats) dirPath d.entries).2.2)
    (hsw : c.skipWalk = false)
    (hfs : findSubdir d.entries c.name = some sub) :
    ∀ x ∈ (walkDir opts rules cancelled
        (loadMatcher opts parent dirPath d.ignorePats)
        (dirPath ++ [c.name]) sub c.skipUpdate).visitedF,
      x ∈ (walkDir opts rules cancelled parent dirPath d su).visitedF := by
  intro x hx
  rw [walkDir_visitedF]
  apply List.mem_cons_of_mem
  apply List.mem_flatten.mpr
  refine ⟨_, List.mem_map.mpr ⟨c, hc, rfl⟩, ?_⟩
  rw [childOutW, if_neg (by simp [hsw]), hfs]
  exact hx

lemma walk_visited_extends : ∀ {d : FSDir}, FSWF d →
    ∀ (opts : Options) (rules : List SkipRule) (cancelled : Bool)
      (parent : GMatcher) (dirPath : SegPath) (su : Bool) (q : SegPath)
      (b : Bool),
    (q, b) ∈ (walkDir opts rules cancelled parent dirPath d su).visitedF →
    dirPath <+: q := by
  intro d hwf
  induction hwf with
  | mk ex pats entries hnd hsub ih =>
    intro opts rules cancelled parent dirPath su q b hq
    rcases walk_visited_cases opts rules cancelled parent dirPath _ su hq with
      ⟨rfl, _⟩ | ⟨c, sub, hc, hsw, hfs, hin⟩
    · exact List.prefix_refl _
    · have hmem := findSubdir_some_mem _ _ _ hfs
      have h2 := ih c.name sub hmem opts rules cancelled _ (dirPath ++ [c.name])
        c.skipUpdate q b hin
      exact (List.prefix_append dirPath [c.name]).trans h2

lemma walk_written_visited : ∀ {d : FSDir}, FSWF d →
    ∀ (opts : Options) (rules : List SkipRule) (cancelled : Bool)
      (parent : GMatcher) (dirPath : SegPath) (su : Bool) (q : SegPath),
    q ∈ (walkDir opts rules cancelled parent dirPath d su).written →
    (q, false) ∈ (walkDir opts rules cancelled parent dirPath d su).visitedF := by
  intro d hwf
  induction hwf with
  | mk ex pats entries hnd hsub ih =>
    intro opts rules cancelled parent dirPath su q hq
    rw [walkDir_written] at hq
    rcases List.mem_append.mp hq with hq1 | hq2
    · by_cases hak : (applyKustomization opts su
          ((FSDir.mk ex pats entries).existing.getD [])
          (scanEntries opts rules
            (loadMatcher opts parent dirPath (FSDir.mk ex pats entries).ignorePats)
            dirPath (FSDir.mk ex pats entries).entries).1
          (scanEntries opts rules
            (loadMatcher opts parent dirPath (FSDir.mk ex pats entries).ignorePats)
            dirPath (FSDir.mk ex pats entries).entries).2.1).1 = true
      · rw [if_pos hak] at hq1
        rcases List.mem_singleton.mp hq1 with rfl
        have hsu : su = false := by
          by_contra hcon
          rw [Bool.not_eq_false] at hcon
          subst hcon
          rw [applyKustomization] at hak
          simp at hak
        subst hsu
        exact walk_visited_self opts rules cancelled parent q _ false
      · rw [if_neg hak] at hq1
        simp at hq1
    · rcases List.mem_flatten.mp hq2 with ⟨block, hblock, hqin⟩
      rcases List.mem_map.mp hblock with ⟨c, hc, rfl⟩
      rw [childOutW] at hqin
      by_cases hsw : c.skipWalk = true
      · rw [if_pos hsw] at hqin
        simp at hqin
      · rw [if_neg hsw] at hqin
        cases hfs : findSubdir (FSDir.mk ex pats entries).entries c.name with
        | none => rw [hfs] at hqin; simp at hqin
        | some sub =>
          rw [hfs] at hqin
          have hmem := findSubdir_some_mem _ _ _ hfs
          have h2 := ih c.name sub hmem opts rules cancelled _
            (dirPath ++ [c.name]) c.skipUpdate q hqin
          exact walk_child_sub opts rules cancelled parent dirPath _ su hc
            (by simpa using hsw) hfs _ h2

lemma FSWF.nodupNames {d : FSDir} (h : FSWF d) :
    (d.entries.map FSEntry.name).Nodup := by
  cases h with
  | mk ex pats entries hnd hsub => exact hnd

lemma FSWF.sub {d : FSDir} (h : FSWF d) {n : Str} {sub : FSDir}
    (hmem : FSEntry.subdir n sub ∈ d.entries) : FSWF sub := by
  cases h with
  | mk ex pats entries hnd hsub => exact hsub n sub hmem

lemma mem_name_unique : ∀ {entries : List FSEntry},
    (entries.map FSEntry.name).Nodup → ∀ {e1 e2 : FSEntry},
    e1 ∈ entries → e2 ∈ entries → e1.name = e2.name → e1 = e2 := by
  intro entries
  induction entries with
  | nil => intro _ e1 e2 h1; simp at h1
  | cons e rest ih =>
    intro hnd e1 e2 h1 h2 hn
    have hnd2 := List.nodup_cons.mp hnd
    rcases List.mem_cons.mp h1 with rfl | h1b
    · rcases List.mem_cons.mp h2 with rfl | h2b
      · rfl
      · exfalso
        apply hnd2.1
        rw [hn]
        exact List.mem_map_of_mem FSEntry.name h2b
    · rcases List.mem_cons.mp h2 with rfl | h2b
      · exfalso
        apply hnd2.1
        rw [← hn]
        exact List.mem_map_of_mem FSEntry.name h1b
      · exact ih hnd2.2 h1b h2b hn

lemma walk_visited_at_root {d : FSDir} (hwf : FSWF d) (opts : Options)
    (rules : List SkipRule) (cancelled : Bool) (parent : GMatcher)
    (dirPath : SegPath) (su : Bool) {b : Bool}
    (hb : (dirPath, b) ∈ (walkDir opts rules cancelled parent dirPath d su).visitedF) :
    b = su := by
  rcases walk_visited_cases opts rules cancelled parent dirPath d su hb with
    ⟨_, hb2⟩ | ⟨c, sub, hc, hsw, hfs, hin⟩
  · exact hb2
  · exfalso
    have hwfs := hwf.sub (findSubdir_some_mem _ _ _ hfs)
    have hext := walk_visited_extends hwfs opts rules cancelled _
      (dirPath ++ [c.name]) c.skipUpdate dirPath b hin
    have := hext.length_le
    simp at this

lemma walk_child_sub_written (opts : Options) (rules : List SkipRule)
    (cancelled : Bool) (parent : GMatcher) (dirPath : SegPath) (d : FSDir)
    (su : Bool) {c : ChildDir} {sub : FSDir}
    (hc : c ∈ (scanEntries opts rules
        (loadMatcher opts parent dirPath d.ignorePats) dirPath d.entries).2.2)
    (hsw : c.skipWalk = false)
    (hfs : findSubdir d.entries c.name = some sub) :
    ∀ q ∈ (walkDir opts rules cancelled
        (loadMatcher opts parent dirPath d.ignorePats)
        (dirPath ++ [c.name]) sub c.skipUpdate).written,
      q ∈ (walkDir opts rules cancelled parent dirPath d su).written := by
  intro q hq
  rw [walkDir_written]
  apply List.mem_append_right
  apply List.mem_flatten.mpr
  refine ⟨_, List.mem_map.mpr ⟨c, hc, rfl⟩, ?_⟩
  rw [childOutW, if_neg (by simp [hsw]), hfs]
  exact hq

lemma findSubdir_sizeOf : ∀ (es : List FSEntry) (n : Str) (sub : FSDir),
    findSubdir es n = some sub → sizeOf sub < sizeOf es := by
  intro es
  induction es with
  | nil => intro n sub hfind; simp [findSubdir] at hfind
  | cons e rest ih =>
    intro n sub hfind
    cases e with
    | file m =>
      have h2 := ih n sub (by simpa [findSubdir] using hfind)
      have h3 : sizeOf rest < sizeOf (FSEntry.file m :: rest) := by simp
      omega
    | subdir m s2 =>
      rw [findSubdir] at hfind
      by_cases hm : m = n
      · simp [hm] at hfind
        subst hfind
        simp
        omega
      · have h2 := ih n sub (by simpa [hm] using hfind)
        simp
        omega

lemma walk_cancel_aux : ∀ (N : Nat) (d : FSDir), sizeOf d ≤ N →
    ∀ (opts : Options) (rules : List SkipRule) (c1 c2 : Bool)
      (parent : GMatcher) (dirPath : SegPath) (su : Bool),
    walkDir opts rules c1 parent dirPath d su
      = walkDir opts rules c2 parent dirPath d su := by
  intro N
  induction N with
  | zero =>
    intro d hd
    exfalso
    cases d with
    | mk ex ip es => simp at hd
  | succ n ih =>
    intro d hd opts rules c1 c2 parent dirPath su
    have hent : sizeOf d.entries ≤ sizeOf d := by
      cases d with
      | mk ex ip es => simp [FSDir.entries]
    have hchild : ∀ (c : ChildDir),
        childOutW opts rules c1 (loadMatcher opts parent dirPath d.ignorePats)
            dirPath d.entries c
          = childOutW opts rules c2 (loadMatcher opts parent dirPath d.ignorePats)
            dirPath d.entries c := by
      intro c
      rw [childOutW, childOutW]
      by_cases hsw : c.skipWalk = true
      · rw [if_pos hsw, if_pos hsw]
      · rw [if_neg hsw, if_neg hsw]
        cases hfs : findSubdir d.entries c.name with
        | none => rfl
        | some sub =>
          have hsz := findSubdir_sizeOf d.entries c.name sub hfs
          exact ih sub (by omega) opts rules c1 c2 _ (dirPath ++ [c.name])
            c.skipUpdate
    conv_lhs => rw [walkDir]
    conv_rhs => rw [walkDir]
    rw [walk_step_eq, walk_step_eq]
    have hfun : (fun (acc : WalkOut) (c : ChildDir) =>
        (⟨addStats acc.stats
            (childOutW opts rules c1 (loadMatcher opts parent dirPath d.ignorePats)
              dirPath d.entries c).stats,
          acc.written ++ (childOutW opts rules c1
            (loadMatcher opts parent dirPath d.ignorePats) dirPath d.entries c).written,
          acc.visitedF ++ (childOutW opts rules c1
            (loadMatcher opts parent dirPath d.ignorePats) dirPath d.entries c).visitedF⟩
          : WalkOut))
        = fun acc c =>
        (⟨addStats acc.stats
            (childOutW opts rules c2 (loadMatcher opts parent dirPath d.ignorePats)
              dirPath d.entries c).stats,
          acc.written ++ (childOutW opts rules c2
            (loadMatcher opts parent dirPath d.ignorePats) dirPath d.entries c).written,
          acc.visitedF ++ (childOutW opts rules c2
            (loadMatcher opts parent dirPath d.ignorePats) dirPath d.entries c).visitedF⟩
          : WalkOut) := by
      funext acc c
      rw [hchild c]
    rw [hfun]

lemma child_named_eq (opts : Options) (rules : List SkipRule) (m : GMatcher)
    (dp : SegPath) {entries : List FSEntry}
    (hnd : (entries.map FSEntry.name).Nodup)
    {v : Str} {sub : FSDir} (hmem : FSEntry.subdir v sub ∈ entries)
    {c : ChildDir} (hcm : c ∈ (scanEntries opts rules m dp entries).2.2)
    (hcn : c.name = v) :
    c ∈ (scanOne opts rules m dp (FSEntry.subdir v sub)).2.2 := by
  rcases scanEntries_child_mem_inv opts rules m dp entries hcm with ⟨e, he, hce⟩
  have hne : e.name = v := by
    rw [← scanOne_child_name opts rules m dp e c hce]
    exact hcn
  have he2 : e = FSEntry.subdir v sub :=
    mem_name_unique hnd he hmem (by rw [hne]; rfl)
  rw [← he2]
  exact hce

/-- C4: a skip rule compiled from a configured string with suffix slash-star-star
is a Subtree rule matching exactly the prefix path and no descendant; when the
walker meets a directory P whose relative path equals the prefix, P stays in the
parent's directory resource list, P's own manifest is never rewritten by the
run, and every child directory under P is still visited with its own
skip-update flag and its writes are writes of the whole run. -/
theorem C4_subtree_skip_semantics (opts : Options) (cancelled su : Bool)
    (d sub : FSDir) (v : Str)
    (hIncl : opts.includeDot = true) (hGI : opts.useGitIgnore = false)
    (hwf : FSWF d) (hk : isKustomization v = false)
    (hfs : findSubdir d.entries v = some sub) :
    (∀ (rel : Str) (b : Bool),
      (matchSkip rel b (parseSkipRules [v ++ "/**".toList])).1 = true ↔ rel = v) ∧
    v ∈ (scanEntries opts (parseSkipRules [v ++ "/**".toList]) GMatcher.nilM []
          d.entries).1 ∧
    [v] ∉ (walkDir opts (parseSkipRules [v ++ "/**".toList]) cancelled
          GMatcher.nilM [] d su).written ∧
    ([v], true) ∈ (walkDir opts (parseSkipRules [v ++ "/**".toList]) cancelled
          GMatcher.nilM [] d su).visitedF ∧
    (∀ (c : ChildDir) (sub2 : FSDir),
      c ∈ (scanEntries opts (parseSkipRules [v ++ "/**".toList]) GMatcher.nilM
            [v] sub.entries).2.2 →
      c.skipWalk = false → findSubdir sub.entries c.name = some sub2 →
      ([v, c.name], c.skipUpdate) ∈ (walkDir opts
            (parseSkipRules [v ++ "/**".toList]) cancelled GMatcher.nilM [] d
            su).visitedF ∧
      ∀ q ∈ (walkDir opts (parseSkipRules [v ++ "/**".toList]) cancelled
            GMatcher.nilM [v, c.name] sub2 c.skipUpdate).written,
        q ∈ (walkDir opts (parseSkipRules [v ++ "/**".toList]) cancelled
            GMatcher.nilM [] d su).written) := by
  have hrule : parseSkipRules [v ++ "/**".toList]
      = [⟨v ++ "/**".toList, SkipMode.subtree, v⟩] := parseSkipRules_subtree v
  have hmatchiff : ∀ (rel : Str) (b : Bool),
      (matchSkip rel b (parseSkipRules [v ++ "/**".toList])).1 = true ↔ rel = v := by
    intro rel b
    rw [hrule, matchSkip_single_subtree]
    by_cases h : rel = v
    · rw [if_pos h]
      simp [h]
    · rw [if_neg h]
      simp [h]
  have hmem : FSEntry.subdir v sub ∈ d.entries := findSubdir_some_mem _ _ _ hfs
  have hmat2 : ∀ (p : GMatcher) (dp : SegPath) (ps : List Str),
      loadMatcher opts p dp ps = GMatcher.nilM := by
    intro p dp ps
    simp [loadMatcher, hGI]
  have hm : matchSkip (joinSegs (([] : SegPath) ++ [v])) true
      (parseSkipRules [v ++ "/**".toList])
      = (true, SkipMode.subtree, v ++ "/**".toList) := by
    show matchSkip v true _ = _
    rw [hrule, matchSkip_single_subtree, if_pos rfl]
  have hscan1 : scanOne opts (parseSkipRules [v ++ "/**".toList]) GMatcher.nilM
      [] (FSEntry.subdir v sub) = ([v], [], [⟨v, true, false⟩]) := by
    rw [scanOne_subdir_skip opts _ [] v sub SkipMode.subtree
      (v ++ "/**".toList) hIncl hk hm]
    rfl
  have hb : v ∈ (scanEntries opts (parseSkipRules [v ++ "/**".toList])
      GMatcher.nilM [] d.entries).1 :=
    scanEntries_dir_mem opts _ GMatcher.nilM [] d.entries _ hmem
      (by rw [hscan1]; simp)
  have hcmem : (⟨v, true, false⟩ : ChildDir)
      ∈ (scanEntries opts (parseSkipRules [v ++ "/**".toList]) GMatcher.nilM []
          d.entries).2.2 :=
    scanEntries_child_mem opts _ GMatcher.nilM [] d.entries _ hmem
      (by rw [hscan1]; simp)
  have huniq : ∀ c : ChildDir,
      c ∈ (scanEntries opts (parseSkipRules [v ++ "/**".toList]) GMatcher.nilM
        [] d.entries).2.2 → c.name = v → c = ⟨v, true, false⟩ := by
    intro c hcm hcn
    have h2 := child_named_eq opts _ GMatcher.nilM [] hwf.nodupNames hmem hcm hcn
    rw [hscan1] at h2
    simpa using h2
  have hnotfalse : ([v], false) ∉ (walkDir opts
      (parseSkipRules [v ++ "/**".toList]) cancelled GMatcher.nilM [] d
      su).visitedF := by
    intro hcon
    rcases walk_visited_cases opts _ cancelled GMatcher.nilM [] d su hcon with
      ⟨h1, _⟩ | ⟨c, sub2, hc, hsw, hfs2, hin⟩
    · exact absurd h1 (by simp)
    · rw [hmat2] at hc hin
      have hwfs2 := hwf.sub (findSubdir_some_mem _ _ _ hfs2)
      have hext := walk_visited_extends hwfs2 opts _ cancelled GMatcher.nilM
        ([] ++ [c.name]) c.skipUpdate [v] false hin
      have hcn : c.name = v := by
        rcases hext with ⟨t, ht⟩
        simp at ht
        exact ht.1
      have hceq := huniq c hc hcn
      rw [hcn] at hfs2
      have hsubeq : sub2 = sub := by
        have := hfs2.symm.trans hfs
        injection this
      simp only [List.nil_append] at hin
      rw [hcn] at hin
      have hroot := walk_visited_at_root hwfs2 opts _ cancelled GMatcher.nilM
        [v] c.skipUpdate hin
      rw [hceq] at hroot
      simp at hroot
  have hcw : [v] ∉ (walkDir opts (parseSkipRules [v ++ "/**".toList]) cancelled
      GMatcher.nilM [] d su).written := by
    intro hcon
    exact hnotfalse
      (walk_written_visited hwf opts _ cancelled GMatcher.nilM [] su [v] hcon)
  have hc0 : (⟨v, true, false⟩ : ChildDir)
      ∈ (scanEntries opts (parseSkipRules [v ++ "/**".toList])
          (loadMatcher opts GMatcher.nilM [] d.ignorePats) [] d.entries).2.2 := by
    rw [hmat2]
    exact hcmem
  have hd1 : ([v], true) ∈ (walkDir opts (parseSkipRules [v ++ "/**".toList])
      cancelled GMatcher.nilM [] d su).visitedF := by
    have hself := walk_visited_self opts (parseSkipRules [v ++ "/**".toList])
      cancelled (loadMatcher opts GMatcher.nilM [] d.ignorePats) ([] ++ [v]) sub
      true
    exact walk_child_sub opts _ cancelled GMatcher.nilM [] d su hc0 rfl hfs _
      hself
  refine ⟨hmatchiff, hb, hcw, hd1, ?_⟩
  intro c sub2 hcm hsw hfs2
  have hcm2 : c ∈ (scanEntries opts (parseSkipRules [v ++ "/**".toList])
      (loadMatcher opts (loadMatcher opts GMatcher.nilM [] d.ignorePats) [v]
        sub.ignorePats) [v] sub.entries).2.2 := by
    rw [hmat2]
    exact hcm
  constructor
  · have hself := walk_visited_self opts (parseSkipRules [v ++ "/**".toList])
      cancelled (loadMatcher opts (loadMatcher opts GMatcher.nilM []
        d.ignorePats) [v] sub.ignorePats) ([v] ++ [c.name]) sub2 c.skipUpdate
    have hB := walk_child_sub opts _ cancelled
      (loadMatcher opts GMatcher.nilM [] d.ignorePats) [v] sub true hcm2 hsw
      hfs2 _ hself
    exact walk_child_sub opts _ cancelled GMatcher.nilM [] d su hc0 rfl hfs _ hB
  · intro q hq
    rw [show GMatcher.nilM = loadMatcher opts (loadMatcher opts GMatcher.nilM []
      d.ignorePats) [v] sub.ignorePats from (hmat2 _ _ _).symm] at hq
    have hB := walk_child_sub_written opts _ cancelled
      (loadMatcher opts GMatcher.nilM [] d.ignorePats) [v] sub true hcm2 hsw
      hfs2 q hq
    exact walk_child_sub_written opts _ cancelled GMatcher.nilM [] d su hc0 rfl
      hfs q hB

lemma wf_leaf : FSWF (FSDir.mk none [] []) := by
  refine FSWF.mk _ _ _ (by simp) ?_
  intro n sub h
  simp at h

lemma wf_subT : FSWF (FSDir.mk (some []) []
    [FSEntry.subdir "b".toList (FSDir.mk none [] [])]) := by
  refine FSWF.mk _ _ _ (by simp) ?_
  intro n sub h
  rw [List.mem_singleton] at h
  injection h with h1 h2
  subst h2
  exact wf_leaf

lemma wf_root : FSWF (FSDir.mk none []
    [FSEntry.subdir "a".toList (FSDir.mk (some []) []
      [FSEntry.subdir "b".toList (FSDir.mk none [] [])])]) := by
  refine FSWF.mk _ _ _ (by simp) ?_
  intro n sub h
  rw [List.mem_singleton] at h
  injection h with h1 h2
  subst h2
  exact wf_subT

/-- Witness for C4 at a concrete tree: a root holding subdirectory a with a
manifest, itself holding subdirectory b, under the subtree rule a-slash-star-star. -/
theorem C4_witness :
    (⟨[], false, true, true, []⟩ : Options).includeDot = true ∧
    (⟨[], false, true, true, []⟩ : Options).useGitIgnore = false ∧
    FSWF (FSDir.mk none []
      [FSEntry.subdir "a".toList (FSDir.mk (some []) []
        [FSEntry.subdir "b".toList (FSDir.mk none [] [])])]) ∧
    isKustomization "a".toList = false ∧
    findSubdir (FSDir.mk none []
      [FSEntry.subdir "a".toList (FSDir.mk (some []) []
        [FSEntry.subdir "b".toList (FSDir.mk none [] [])])]).entries "a".toList
      = some (FSDir.mk (some []) []
        [FSEntry.subdir "b".toList (FSDir.mk none [] [])]) ∧
    ((∀ (rel : Str) (b : Bool),
      (matchSkip rel b (parseSkipRules ["a".toList ++ "/**".toList])).1 = true
        ↔ rel = "a".toList) ∧
    "a".toList ∈ (scanEntries ⟨[], false, true, true, []⟩
        (parseSkipRules ["a".toList ++ "/**".toList]) GMatcher.nilM []
        (FSDir.mk none []
          [FSEntry.subdir "a".toList (FSDir.mk (some []) []
            [FSEntry.subdir "b".toList (FSDir.mk none [] [])])]).entries).1 ∧
    ["a".toList] ∉ (walkDir ⟨[], false, true, true, []⟩
        (parseSkipRules ["a".toList ++ "/**".toList]) false GMatcher.nilM []
        (FSDir.mk none []
          [FSEntry.subdir "a".toList (FSDir.mk (some []) []
            [FSEntry.subdir "b".toList (FSDir.mk none [] [])])])
        false).written ∧
    (["a".toList], true) ∈ (walkDir ⟨[], false, true, true, []⟩
        (parseSkipRules ["a".toList ++ "/**".toList]) false GMatcher.nilM []
        (FSDir.mk none []
          [FSEntry.subdir "a".toList (FSDir.mk (some []) []
            [FSEntry.subdir "b".toList (FSDir.mk none [] [])])])
        false).visitedF ∧
    (∀ (c : ChildDir) (sub2 : FSDir),
      c ∈ (scanEntries ⟨[], false, true, true, []⟩
            (parseSkipRules ["a".toList ++ "/**".toList]) GMatcher.nilM
            ["a".toList] (FSDir.mk (some []) []
              [FSEntry.subdir "b".toList (FSDir.mk none [] [])]).entries).2.2 →
      c.skipWalk = false →
      findSubdir (FSDir.mk (some []) []
          [FSEntry.subdir "b".toList (FSDir.mk none [] [])]).entries c.name
        = some sub2 →
      (["a".toList, c.name], c.skipUpdate) ∈ (walkDir ⟨[], false, true, true, []⟩
          (parseSkipRules ["a".toList ++ "/**".toList]) false GMatcher.nilM []
          (FSDir.mk none []
            [FSEntry.subdir "a".toList (FSDir.mk (some []) []
              [FSEntry.subdir "b".toList (FSDir.mk none [] [])])])
          false).visitedF ∧
      ∀ q ∈ (walkDir ⟨[], false, true, true, []⟩
            (parseSkipRules ["a".toList ++ "/**".toList]) false GMatcher.nilM
            ["a".toList, c.name] sub2 c.skipUpdate).written,
        q ∈ (walkDir ⟨[], false, true, true, []⟩
            (parseSkipRules ["a".toList ++ "/**".toList]) false GMatcher.nilM []
            (FSDir.mk none []
              [FSEntry.subdir "a".toList (FSDir.mk (some []) []
                [FSEntry.subdir "b".toList (FSDir.mk none [] [])])])
            false).written)) :=
  ⟨rfl, rfl, wf_root, by decide, rfl,
    C4_subtree_skip_semantics ⟨[], false, true, true, []⟩ false false
      (FSDir.mk none []
        [FSEntry.subdir "a".toList (FSDir.mk (some []) []
          [FSEntry.subdir "b".toList (FSDir.mk none [] [])])])
      (FSDir.mk (some []) [] [FSEntry.subdir "b".toList (FSDir.mk none [] [])])
      "a".toList rfl rfl wf_root (by decide) rfl⟩

/-- Counterexample for C5: the spec says a Children rule matches the prefix
path itself for every entry kind, but the code requires the entry to be a
directory for the prefix-itself match, so a plain file whose relative path
equals the prefix is not matched (while a directory at the same path is). -/
theorem C5_counterexample :
    (matchSkip "a".toList false (parseSkipRules ["a/*".toList])).1 = false ∧
    (matchSkip "a".toList true (parseSkipRules ["a/*".toList])).1 = true := by
  decide

/-- C5 (amended): a rule compiled from a configured string with suffix
slash-star is a Children rule; it matches the prefix path itself only when the
entry is a directory, and any direct one-segment child for either entry kind;
when the walker meets a directory P whose relative path equals the prefix, P
stays listed in the parent's directory resource list but recursion into P is
suppressed entirely: no path at or below P is ever visited or written. -/
theorem C5_children_skip_semantics (opts : Options) (cancelled su : Bool)
    (d sub : FSDir) (v : Str)
    (hIncl : opts.includeDot = true) (hGI : opts.useGitIgnore = false)
    (hwf : FSWF d) (hv : v ≠ []) (hk : isKustomization v = false)
    (hfs : findSubdir d.entries v = some sub) :
    (∀ (rel : Str) (b : Bool),
      (matchSkip rel b (parseSkipRules [v ++ "/*".toList])).1 = true ↔
        ((b = true ∧ rel = v) ∨
          ∃ c : Str, rel = v ++ '/' :: c ∧ c ≠ [] ∧ ('/' : Char) ∉ c)) ∧
    v ∈ (scanEntries opts (parseSkipRules [v ++ "/*".toList]) GMatcher.nilM []
          d.entries).1 ∧
    (∀ (q : SegPath) (b : Bool),
      (q, b) ∈ (walkDir opts (parseSkipRules [v ++ "/*".toList]) cancelled
          GMatcher.nilM [] d su).visitedF → ¬ [v] <+: q) ∧
    (∀ q ∈ (walkDir opts (parseSkipRules [v ++ "/*".toList]) cancelled
          GMatcher.nilM [] d su).written, ¬ [v] <+: q) := by
  have hrule : parseSkipRules [v ++ "/*".toList]
      = [⟨v ++ "/*".toList, SkipMode.children, v⟩] := parseSkipRules_children v
  have hmatchiff : ∀ (rel : Str) (b : Bool),
      (matchSkip rel b (parseSkipRules [v ++ "/*".toList])).1 = true ↔
        ((b = true ∧ rel = v) ∨
          ∃ c : Str, rel = v ++ '/' :: c ∧ c ≠ [] ∧ ('/' : Char) ∉ c) := by
    intro rel b
    rw [hrule]
    exact Iff.trans (matchSkip_single_children v (v ++ "/*".toList) rel b)
      (or_congr Iff.rfl (matchesChild_iff v rel hv))
  have hmem : FSEntry.subdir v sub ∈ d.entries := findSubdir_some_mem _ _ _ hfs
  have hmat2 : ∀ (p : GMatcher) (dp : SegPath) (ps : List Str),
      loadMatcher opts p dp ps = GMatcher.nilM := by
    intro p dp ps
    simp [loadMatcher, hGI]
  have hm : matchSkip (joinSegs (([] : SegPath) ++ [v])) true
      (parseSkipRules [v ++ "/*".toList])
      = (true, SkipMode.children, v ++ "/*".toList) := by
    show matchSkip v true _ = _
    rw [hrule, matchSkip_single_children_full, if_pos ⟨rfl, rfl⟩]
  have hscan1 : scanOne opts (parseSkipRules [v ++ "/*".toList]) GMatcher.nilM
      [] (FSEntry.subdir v sub) = ([v], [], [⟨v, false, true⟩]) := by
    rw [scanOne_subdir_skip opts _ [] v sub SkipMode.children
      (v ++ "/*".toList) hIncl hk hm]
    rfl
  have hb : v ∈ (scanEntries opts (parseSkipRules [v ++ "/*".toList])
      GMatcher.nilM [] d.entries).1 :=
    scanEntries_dir_mem opts _ GMatcher.nilM [] d.entries _ hmem
      (by rw [hscan1]; simp)
  have huniq : ∀ c : ChildDir,
      c ∈ (scanEntries opts (parseSkipRules [v ++ "/*".toList]) GMatcher.nilM
        [] d.entries).2.2 → c.name = v → c = ⟨v, false, true⟩ := by
    intro c hcm hcn
    have h2 := child_named_eq opts _ GMatcher.nilM [] hwf.nodupNames hmem hcm hcn
    rw [hscan1] at h2
    simpa using h2
  have hvis : ∀ (q : SegPath) (b : Bool),
      (q, b) ∈ (walkDir opts (parseSkipRules [v ++ "/*".toList]) cancelled
          GMatcher.nilM [] d su).visitedF → ¬ [v] <+: q := by
    intro q b hq hpre
    rcases walk_visited_cases opts _ cancelled GMatcher.nilM [] d su hq with
      ⟨h1, _⟩ | ⟨c, sub2, hc, hsw, hfs2, hin⟩
    · subst h1
      rcases hpre with ⟨t, ht⟩
      simp at ht
    · rw [hmat2] at hc hin
      have hwfs2 := hwf.sub (findSubdir_some_mem _ _ _ hfs2)
      have hext := walk_visited_extends hwfs2 opts _ cancelled GMatcher.nilM
        ([] ++ [c.name]) c.skipUpdate q b hin
      rcases hpre with ⟨t, ht⟩
      rcases hext with ⟨t2, ht2⟩
      simp only [List.nil_append, List.singleton_append] at ht ht2
      have hcn : c.name = v := by
        rw [← ht2] at ht
        injection ht with hh _
        exact hh.symm
      have hceq := huniq c hc hcn
      rw [hceq] at hsw
      simp at hsw
  refine ⟨hmatchiff, hb, hvis, ?_⟩
  intro q hq hpre
  exact hvis q false
    (walk_written_visited hwf opts _ cancelled GMatcher.nilM [] su q hq) hpre

/-- Witness for C5 at the same concrete tree, under the children rule
a-slash-star. -/
theorem C5_witness :
    (⟨[], false, true, true, []⟩ : Options).includeDot = true ∧
    (⟨[], false, true, true, []⟩ : Options).useGitIgnore = false ∧
    FSWF (FSDir.mk none []
      [FSEntry.subdir "a".toList (FSDir.mk (some []) []
        [FSEntry.subdir "b".toList (FSDir.mk none [] [])])]) ∧
    "a".toList ≠ ([] : Str) ∧
    isKustomization "a".toList = false ∧
    findSubdir (FSDir.mk none []
      [FSEntry.subdir "a".toList (FSDir.mk (some []) []
        [FSEntry.subdir "b".toList (FSDir.mk none [] [])])]).entries "a".toList
      = some (FSDir.mk (some []) []
        [FSEntry.subdir "b".toList (FSDir.mk none [] [])]) ∧
    ((∀ (rel : Str) (b : Bool),
      (matchSkip rel b (parseSkipRules ["a".toList ++ "/*".toList])).1 = true ↔
        ((b = true ∧ rel = "a".toList) ∨
          ∃ c : Str, rel = "a".toList ++ '/' :: c ∧ c ≠ [] ∧ ('/' : Char) ∉ c)) ∧
    "a".toList ∈ (scanEntries ⟨[], false, true, true, []⟩
        (parseSkipRules ["a".toList ++ "/*".toList]) GMatcher.nilM []
        (FSDir.mk none []
          [FSEntry.subdir "a".toList (FSDir.mk (some []) []
            [FSEntry.subdir "b".toList (FSDir.mk none [] [])])]).entries).1 ∧
    (∀ (q : SegPath) (b : Bool),
      (q, b) ∈ (walkDir ⟨[], false, true, true, []⟩
          (parseSkipRules ["a".toList ++ "/*".toList]) false GMatcher.nilM []
          (FSDir.mk none []
            [FSEntry.subdir "a".toList (FSDir.mk (some []) []
              [FSEntry.subdir "b".toList (FSDir.mk none [] [])])])
          false).visitedF → ¬ ["a".toList] <+: q) ∧
    (∀ q ∈ (walkDir ⟨[], false, true, true, []⟩
          (parseSkipRules ["a".toList ++ "/*".toList]) false GMatcher.nilM []
          (FSDir.mk none []
            [FSEntry.subdir "a".toList (FSDir.mk (some []) []
              [FSEntry.subdir "b".toList (FSDir.mk none [] [])])])
          false).written, ¬ ["a".toList] <+: q)) :=
  ⟨rfl, rfl, wf_root, by decide, by decide, rfl,
    C5_children_skip_semantics ⟨[], false, true, true, []⟩ false false
      (FSDir.mk none []
        [FSEntry.subdir "a".toList (FSDir.mk (some []) []
          [FSEntry.subdir "b".toList (FSDir.mk none [] [])])])
      (FSDir.mk (some []) [] [FSEntry.subdir "b".toList (FSDir.mk none [] [])])
      "a".toList rfl rfl wf_root (by decide) (by decide) rfl⟩

/-- Counterexample for C6: a walk invoked with the cancellation flag set still
rewrites the manifest of a directory whose existing list is out of date, so
the cancellation signal does not stop the walk and does not prevent writes. -/
theorem C6_counterexample :
    (walkDir ⟨[], false, true, true, []⟩ [] true GMatcher.nilM []
        (FSDir.mk (some []) [] [FSEntry.file "app.yaml".toList])
        false).written = [[]] := by
  rw [walkDir_written]
  have hm : loadMatcher ⟨[], false, true, true, []⟩ GMatcher.nilM []
      (FSDir.mk (some []) [] [FSEntry.file "app.yaml".toList]).ignorePats
      = GMatcher.nilM := by
    simp [loadMatcher]
  rw [hm]
  have hs : scanEntries ⟨[], false, true, true, []⟩ [] GMatcher.nilM []
      (FSDir.mk (some []) [] [FSEntry.file "app.yaml".toList]).entries
      = ([], ["app.yaml".toList], []) := by
    decide
  rw [hs]
  rw [if_pos (by decide)]
  simp

/-- C6 (amended): the cancellation signal is threaded through every recursive
step of the walk but never consulted; the walk result, including every
manifest write, is identical whether or not the ambient context is cancelled,
so cancellation neither stops the walk nor prevents any write. -/
theorem C6_cancellation_never_consulted (opts : Options)
    (rules : List SkipRule) (c1 c2 : Bool) (parent : GMatcher)
    (dirPath : SegPath) (d : FSDir) (su : Bool) :
    walkDir opts rules c1 parent dirPath d su
      = walkDir opts rules c2 parent dirPath d su :=
  walk_cancel_aux (sizeOf d) d (Nat.le_refl _) opts rules c1 c2 parent dirPath
    su
